import Mathlib

/-!
Verification of the entity-aware naming and matching engine of the
bids-dataset-tools repository, shallowly embedded from
`src/json_manager/bids_rename_manager.py` and
`src/EventFile/bids_event_importer.py`.

Python strings are modelled as `List Char` (`Str`), Python lists/dicts as
Lean lists (association lists with Python-dict assignment semantics),
filesystem paths as lists of path components, and the filesystem itself as
boolean membership functions for files and directories.  Fallible Python
code (raising `ValueError` / `RuntimeError`) is modelled with `Except`.
-/

deriving instance DecidableEq for Except

namespace BidsTools

/-- Python strings, modelled as lists of characters. -/
abbrev Str := List Char

/-- Shorthand to turn a Lean string literal into the `Str` model. -/
def str (s : String) : Str := s.toList

/-- Python `text.split("_")`: split on every underscore, keeping empty pieces
(`"a__b".split("_") == ["a", "", "b"]`). -/
def splitUnd : Str → List Str
  | [] => [[]]
  | c :: cs =>
    if c = '_' then [] :: splitUnd cs
    else
      match splitUnd cs with
      | [] => [[c]]
      | s :: rest => (c :: s) :: rest

/-- Python `"_".join(parts)`. -/
def joinUnd : List Str → Str
  | [] => []
  | [s] => s
  | s :: t :: rest => s ++ '_' :: joinUnd (t :: rest)

/-- Python `re.sub(r"_+", "_", text)`: collapse every run of underscores to a
single underscore (an underscore is dropped exactly when another follows it). -/
def collapseUnd : Str → Str
  | [] => []
  | [c] => [c]
  | c :: d :: rest =>
    if c = '_' ∧ d = '_' then collapseUnd (d :: rest)
    else c :: collapseUnd (d :: rest)

/-- Drop leading underscores (the left half of Python `text.strip("_")`). -/
def ldropUnd (l : Str) : Str := l.dropWhile (fun c => c = '_')

/-- Drop trailing underscores (the right half of Python `text.strip("_")`). -/
def rdropUnd (l : Str) : Str := (l.reverse.dropWhile (fun c => c = '_')).reverse

/-- Python `text.strip("_")`. -/
def stripUnd (l : Str) : Str := rdropUnd (ldropUnd l)

/-- `BIDSFileRenamer._normalize_base`: collapse repeated separators, then trim
leading/trailing separators. -/
def normalizeBase (l : Str) : Str := stripUnd (collapseUnd l)

/-- The non-empty segments of a name, as used by both parsers
(`[p for p in base_name.split("_") if p]`). -/
def partsUnd (l : Str) : List Str := (splitUnd l).filter (fun s => !s.isEmpty)

/-! ## Entity codec (`bids_rename_manager.py`) -/

/-- The key of a segment: Python `part.split("-", 1)[0]`. -/
def segKey (s : Str) : Str := s.takeWhile (fun c => ¬ (c = '-'))

/-- The value of a segment: Python `part.split("-", 1)[1]`. -/
def segVal (s : Str) : Str := (s.dropWhile (fun c => ¬ (c = '-'))).tail

/-- Python `part.split("-", 1)` guarded by `"-" in part`. -/
def splitDash1 (s : Str) : Option (Str × Str) :=
  if '-' ∈ s then some (segKey s, segVal s) else none

/-- Python-dict assignment `m[k] = v` on an ordered association list: update
in place if the key is present, append otherwise. -/
def odInsert (m : List (Str × Str)) (k : Str) (v : Str) : List (Str × Str) :=
  if m.any (fun p => p.1 = k) then m.map (fun p => if p.1 = k then (k, v) else p)
  else m ++ [(k, v)]

/-- The entity-collecting loop of `_parse_bids_name` over the non-final
segments, with the accumulated ordered dict. -/
def parseEntitiesAux : List (Str × Str) → List Str → Except String (List (Str × Str))
  | acc, [] => .ok acc
  | acc, part :: rest =>
    match splitDash1 part with
    | none => .error "Segment is missing - separator"
    | some (k, v) =>
      if k = [] ∨ v = [] then .error "Invalid BIDS entity expression"
      else parseEntitiesAux (odInsert acc k v) rest

/-- `BIDSFileRenamer._parse_bids_name`: take the non-empty segments, classify
the last as the suffix, collect the rest as entities (an entity-loop error
propagates), then require the `sub` key. -/
def parseBidsName (baseName : Str) : Except String (List (Str × Str) × Str) :=
  match partsUnd baseName with
  | [] => .error "Empty filename"
  | p :: ps =>
    match parseEntitiesAux [] (p :: ps).dropLast with
    | .error e => .error e
    | .ok entities =>
      if entities.any (fun e => e.1 = str "sub") then
        .ok (entities, (p :: ps).getLast (List.cons_ne_nil p ps))
      else .error "Filename is missing required sub entity"

/-- The `^[A-Za-z0-9]+$` pattern used for suffixes and entity values. -/
def isAlphaNumStr (l : Str) : Bool :=
  !l.isEmpty && l.all (fun c => c.isAlpha || c.isDigit)

/-- `BIDSFileRenamer._build_bids_name`: validate the suffix and join the
entity segments in the iteration order of the map, suffix last. -/
def buildBidsName (entities : List (Str × Str)) (suffix : Str) : Except String Str :=
  if ¬ isAlphaNumStr suffix then .error "Suffix contains invalid characters"
  else .ok (joinUnd ((entities.map (fun e => e.1 ++ '-' :: e.2)) ++ [suffix]))

/-- `CANONICAL_ENTITY_ORDER` from `bids_rename_manager.py`. -/
def CANONICAL_ENTITY_ORDER : List Str :=
  [str "sub", str "ses", str "task", str "acq", str "ce", str "dir", str "rec",
   str "run", str "echo", str "flip", str "inv", str "mt", str "part",
   str "recording", str "space", str "split", str "desc", str "label"]

/-- `BIDSFileRenamer._entity_order_index`: position in the canonical list, or
`len + 1` when absent (Python `list.index` raising `ValueError`). -/
def entityOrderIndex (entity : Str) : Nat :=
  let i := CANONICAL_ENTITY_ORDER.indexOf entity
  if i = CANONICAL_ENTITY_ORDER.length then CANONICAL_ENTITY_ORDER.length + 1 else i

/-! ## Entity insertion and the rename transform pipeline -/

/-- Python `value.strip()` (default whitespace strip). -/
def pyStrip (s : Str) : Str :=
  ((s.dropWhile Char.isWhitespace).reverse.dropWhile Char.isWhitespace).reverse

/-- The insertion loop of `_insert_or_update_entity`: walk the existing
entries and place the new pair immediately before the first entry whose
canonical index strictly exceeds the target index; the `Bool` reports whether
the pair was inserted. -/
def insertPass (targetIndex : Nat) (kv : Str × Str) :
    List (Str × Str) → List (Str × Str) × Bool
  | [] => ([], false)
  | e :: es =>
    if targetIndex < entityOrderIndex e.1 then (kv :: e :: es, true)
    else
      let r := insertPass targetIndex kv es
      (e :: r.1, r.2)

/-- `BIDSFileRenamer._insert_or_update_entity`. -/
def insertOrUpdateEntity (entities : List (Str × Str)) (entity : Str) (value : Str) :
    Except String (List (Str × Str)) :=
  let sanitized := pyStrip value
  if ¬ isAlphaNumStr sanitized then .error "Entity value contains invalid characters"
  else if entities.any (fun p => p.1 = entity) then
    .ok (entities.map (fun p => if p.1 = entity then (entity, sanitized) else p))
  else
    let r := insertPass (entityOrderIndex entity) (entity, sanitized) entities
    .ok (if r.2 then r.1 else r.1 ++ [(entity, sanitized)])

/-- Python `text.replace(old, new)` for non-empty `old`: replace every
non-overlapping occurrence, scanning left to right. -/
def replaceAllAux (old new : Str) (hold : old ≠ []) : Str → Str
  | [] => []
  | c :: cs =>
    if old.isPrefixOf (c :: cs) then
      new ++ replaceAllAux old new hold ((c :: cs).drop old.length)
    else c :: replaceAllAux old new hold cs
termination_by l => l.length
decreasing_by
  · simp only [List.length_drop, List.length_cons]
    have : 0 < old.length := List.length_pos.mpr hold
    omega
  · simp

/-- Python `text.replace(old, new)` (an empty `old` inserts `new` before every
character and at the end). -/
def replaceAll (l : Str) (old new : Str) : Str :=
  if h : old = [] then new ++ l.foldr (fun c acc => c :: (new ++ acc)) []
  else replaceAllAux old new h l

/-- Configuration of `BIDSFileRenamer` (the mutation-relevant fields). -/
structure RenameConfig where
  removeSubstrings : List Str := []
  replacePairs : List (Str × Str) := []
  removeEntities : List Str := []
  setEntities : List (Str × Str) := []

/-- The `for entity in self.remove_entities` loop of `_transform_base_name`:
removing the subject key raises, any other key is popped from the map. -/
def removeEntitiesLoop : List (Str × Str) → List Str → Except String (List (Str × Str))
  | ents, [] => .ok ents
  | ents, e :: rest =>
    if e = str "sub" then .error "Cannot remove mandatory sub entity"
    else removeEntitiesLoop (ents.filter (fun p => ¬ (p.1 = e))) rest

/-- The `for entity, value in self.set_entities.items()` loop of
`_transform_base_name`: an empty value raises, otherwise insert-or-update. -/
def setEntitiesLoop : List (Str × Str) → List (Str × Str) → Except String (List (Str × Str))
  | ents, [] => .ok ents
  | ents, (k, v) :: rest =>
    if v = [] then .error "Entity requires a non-empty value"
    else
      match insertOrUpdateEntity ents k v with
      | .error e => .error e
      | .ok ents2 => setEntitiesLoop ents2 rest

/-- The raw substring removals and replacements of `_transform_base_name`. -/
def applySubstringOps (cfg : RenameConfig) (baseName : Str) : Str :=
  let u1 := cfg.removeSubstrings.foldl (fun acc r => replaceAll acc r []) baseName
  cfg.replacePairs.foldl (fun acc pr => replaceAll acc pr.1 pr.2) u1

/-- `BIDSFileRenamer._transform_base_name`: raw substring removals, raw
replacements, re-parse, entity removals, entity insertions, rebuild,
normalize. -/
def transformBaseName (cfg : RenameConfig) (baseName : Str) : Except String Str :=
  match parseBidsName (applySubstringOps cfg baseName) with
  | .error e => .error e
  | .ok (entities, sfx) =>
    match removeEntitiesLoop entities cfg.removeEntities with
    | .error e => .error e
    | .ok ents2 =>
      match setEntitiesLoop ents2 cfg.setEntities with
      | .error e => .error e
      | .ok ents3 =>
        match buildBidsName ents3 sfx with
        | .error e => .error e
        | .ok rebuilt => .ok (normalizeBase rebuilt)

/-- `BIDSFileRenamer._validate_bids_name`. -/
def validateBidsName (baseName : Str) : Except String Unit :=
  match parseBidsName baseName with
  | .error e => .error e
  | .ok (entities, sfx) =>
    if ¬ isAlphaNumStr sfx then .error "Suffix contains invalid characters"
    else if entities.all (fun p => isAlphaNumStr p.2) then .ok ()
    else .error "Entity value contains invalid characters"

/-- `Path(name).suffixes` joined (`_collect_suffix`): everything from the
first dot once leading dots are skipped. -/
def collectSuffix (name : Str) : Str :=
  (name.dropWhile (fun c => c = '.')).dropWhile (fun c => ¬ (c = '.'))

/-- `_strip_all_suffixes` / `_strip_extensions`: the name with every extension
removed (leading dots are kept). -/
def stripAllSuffixes (name : Str) : Str :=
  name.takeWhile (fun c => c = '.') ++
    ((name.dropWhile (fun c => c = '.')).takeWhile (fun c => ¬ (c = '.')))

/-! ### C8: insertion keeps canonical order -/

/-- The ordering relation maintained by entity insertion. -/
def EntOrd (a b : Str × Str) : Prop := entityOrderIndex a.1 ≤ entityOrderIndex b.1

instance : DecidableRel EntOrd := fun a b =>
  inferInstanceAs (Decidable (entityOrderIndex a.1 ≤ entityOrderIndex b.1))

/-! ## Paths, filesystem model, collision checking and move execution -/

/-- A filesystem path, as a list of components. -/
abbrev Path := List Str

/-- The filesystem: which paths exist as files and which as directories. -/
structure FS where
  files : Path → Bool
  dirs : Path → Bool

/-- `Path.exists()`: true for files and directories alike. -/
def existsAt (fs : FS) (p : Path) : Bool := fs.files p || fs.dirs p

/-- Association-list lookup (Python dict `m[k]` / `m.get(k)`). -/
def alookup {κ β : Type} [DecidableEq κ] : List (κ × β) → κ → Option β
  | [], _ => none
  | p :: ps, k => if p.1 = k then some p.2 else alookup ps k

/-- Python-dict assignment `m[k] = v` for arbitrary key/value types. -/
def dictInsert {κ β : Type} [DecidableEq κ] (m : List (κ × β)) (k : κ) (v : β) :
    List (κ × β) :=
  if m.any (fun p => p.1 = k) then m.map (fun p => if p.1 = k then (k, v) else p)
  else m ++ [(k, v)]

/-- The first loop of `_ensure_no_collisions`: record each non-identity
move's destination in `targets`, rejecting a destination already claimed by a
different source. -/
def checkDupAux (targets : List (Path × Path)) : List (Path × Path) → Except String (List (Path × Path))
  | [] => .ok targets
  | (o, n) :: ms =>
    if o = n then checkDupAux targets ms
    else
      match alookup targets n with
      | some o2 =>
        if ¬ (o2 = o) then .error "Multiple files want to rename to target"
        else checkDupAux (dictInsert targets n o) ms
      | none => checkDupAux (dictInsert targets n o) ms

/-- The second loop of `_ensure_no_collisions`: a non-identity move whose
destination exists on disk (and is not the move's own source path) is
rejected. -/
def checkExisting (root : Path) (fs : FS) : List (Path × Path) → Except String Unit
  | [] => .ok ()
  | (o, n) :: ms =>
    if o = n then checkExisting root fs ms
    else
      if existsAt fs (root ++ n) = true ∧ ¬ (root ++ n = root ++ o) then
        .error "Target already exists"
      else checkExisting root fs ms

/-- `BIDSFileRenamer._ensure_no_collisions`. -/
def ensureNoCollisions (root : Path) (fs : FS) (moves : List (Path × Path)) :
    Except String Unit :=
  match checkDupAux [] moves with
  | .error e => .error e
  | .ok _ => checkExisting root fs moves

/-- Mark a single file path present/absent. -/
def fsSetFile (fs : FS) (p : Path) (b : Bool) : FS :=
  ⟨fun q => if q = p then b else fs.files q, fs.dirs⟩

/-- `dir.mkdir(parents=True, exist_ok=True)`: the directory and every prefix
of it become directories. -/
def fsMkdirParents (fs : FS) (d : Path) : FS :=
  ⟨fs.files, fun q => fs.dirs q || q.isPrefixOf d⟩

/-- `self.backup_base_dirname = Path("sourcedata") / "backup"`. -/
def backupDirname : Path := [str "sourcedata", str "backup"]

/-- `BIDSFileRenamer._execute_moves`: skip identity moves, log-only in
dry-run, otherwise back up (optional), create destination parents and move;
returns the filesystem and the processed destination list. -/
def executeMoves (dryRun backupEnabled : Bool) (root : Path) (fs : FS) :
    List (Path × Path) → FS × List Path
  | [] => (fs, [])
  | (o, n) :: ms =>
    if o = n then executeMoves dryRun backupEnabled root fs ms
    else if dryRun then executeMoves dryRun backupEnabled root fs ms
    else
      let fs1 := if backupEnabled then
          fsSetFile (fsMkdirParents fs ((root ++ backupDirname ++ o).dropLast))
            (root ++ backupDirname ++ o) true
        else fs
      let fs2 := fsMkdirParents fs1 ((root ++ n).dropLast)
      let fs3 := fsSetFile (fsSetFile fs2 (root ++ o) false) (root ++ n) true
      let r := executeMoves dryRun backupEnabled root fs3 ms
      (r.1, n :: r.2)

/-- The tail of `BIDSFileRenamer.rename`: collision pre-validation, then move
execution; a collision error aborts before any mutation. -/
def renameTail (dryRun backupEnabled : Bool) (root : Path) (fs : FS)
    (moves : List (Path × Path)) : Except String (FS × List Path) :=
  match ensureNoCollisions root fs moves with
  | .error e => .error e
  | .ok _ => .ok (executeMoves dryRun backupEnabled root fs moves)

/-! ## Rename planning (`BIDSFileRenamer.rename` per-group loop) -/

/-- One base-name group: a parent directory, the common base name, and the
filenames (within the parent) grouped under it. -/
structure FileGroup where
  parent : Path
  base : Str
  files : List Str

/-- The per-group planning loop of `rename`: a transform error records the
group path and continues; an unchanged name is skipped; otherwise the new
name is validated (an invalid result aborts the run — the exception is not
caught) and a move is planned for every file in the group. -/
def planRenameAux (cfg : RenameConfig) : List FileGroup → Except String (List (Path × Path) × List Path)
  | [] => .ok ([], [])
  | g :: gs =>
    match transformBaseName cfg g.base with
    | .error _ =>
      match planRenameAux cfg gs with
      | .error e => .error e
      | .ok (mv, errs) => .ok (mv, (g.parent ++ [g.base]) :: errs)
    | .ok nb =>
      if nb = g.base then planRenameAux cfg gs
      else
        match validateBidsName nb with
        | .error e => .error e
        | .ok _ =>
          match planRenameAux cfg gs with
          | .error e => .error e
          | .ok (mv, errs) =>
            .ok ((g.files.map (fun fname =>
              (g.parent ++ [fname], g.parent ++ [nb ++ collectSuffix fname]))) ++ mv, errs)

/-- `Except` values carrying an error. -/
def exceptHasError {ε α : Type} : Except ε α → Bool
  | .error _ => true
  | .ok _ => false

/-- Moves that are not the identity (`old_rel == new_rel` is skipped). -/
def nonIdentityMoves (moves : List (Path × Path)) : List (Path × Path) :=
  moves.filter (fun x => ¬ (x.1 = x.2))

/-- Two moves are compatible when equal destinations force equal sources. -/
def MoveCompat (a b : Path × Path) : Prop := a.2 = b.2 → a.1 = b.1

instance : DecidableRel MoveCompat := fun a b =>
  if h2 : a.2 = b.2 then
    if h1 : a.1 = b.1 then .isTrue (fun _ => h1) else .isFalse (fun f => h1 (f h2))
  else .isTrue (fun f => absurd f h2)

/-- Example filesystem for the collision counterexample: only `r/a` and `r/b`
exist (the two batch sources). -/
def fsTwoFiles : FS :=
  ⟨fun p => decide (p = [str "r", str "a"] ∨ p = [str "r", str "b"]), fun _ => false⟩

/-- A chain batch: `a -> b` and `b -> c`, with distinct destinations. -/
def chainMoves : List (Path × Path) :=
  [([str "a"], [str "b"]), ([str "b"], [str "c"])]

/-- An empty filesystem. -/
def fsNone : FS := ⟨fun _ => false, fun _ => false⟩

/-- The rename configuration that removes the protected subject key. -/
def cfgRemoveSub : RenameConfig := ⟨[], [], [str "sub"], []⟩

/-- A first file group for the protected-attribute scenario. -/
def groupA : FileGroup := ⟨[str "sub-01", str "anat"], str "sub-01_T1w", [str "sub-01_T1w.nii"]⟩

/-- A second file group for the protected-attribute scenario. -/
def groupB : FileGroup := ⟨[str "sub-02", str "anat"], str "sub-02_T1w", [str "sub-02_T1w.nii"]⟩

/-! ## Event importer (`bids_event_importer.py`) -/

/-- A matched bold reference: the base name without its `_bold` tag, and the
directory (relative to the BIDS root) that holds the bold file. -/
structure MatchedBase where
  base : Str
  modalityDir : Path
  deriving DecidableEq

/-- Key of the exact index: (subject, session, task, run). -/
abbrev FullKey := Str × Option Str × Str × Option Str

/-- Key of the relaxed index: (subject, session, task). -/
abbrev TaskKey := Str × Option Str × Str

/-- The exact index `by_full`. -/
abbrev FullMap := List (FullKey × MatchedBase)

/-- The relaxed index `by_task` with its run-bucketed candidate lists. -/
abbrev TaskMap := List (TaskKey × List (Option Str × MatchedBase))

/-- Decimal digits of a natural number (Python `str(int(v))`). -/
def natToStr (n : Nat) : Str := Nat.toDigits 10 n

/-- Python `int(v)` for a digit string. -/
def strToNat (s : Str) : Nat := s.foldl (fun a c => a * 10 + (c.toNat - '0'.toNat)) 0

/-- `BIDSEventImporter._normalize_numeric`: map digit-only values to the
unpadded decimal form, keep everything else (ASCII digits modelled). -/
def normalizeNumeric : Option Str → Option Str
  | none => none
  | some v => if ¬ (v = []) ∧ v.all Char.isDigit then some (natToStr (strToNat v)) else some v

/-- Python `a or b` over optional strings (an empty string is falsy). -/
def pyOrStr (a b : Option Str) : Option Str :=
  match a with
  | some v => if v = [] then b else some v
  | none => b

/-- Python dict membership `k in entities`. -/
def hasKey (entities : List (Str × Str)) (k : Str) : Bool := (alookup entities k).isSome

/-- Python `k in entities and not entities[k]`. -/
def emptyVal (entities : List (Str × Str)) (k : Str) : Bool :=
  match alookup entities k with
  | some v => v.isEmpty
  | none => false

/-- `BIDSEventImporter.FileInfo` (the path is carried separately). -/
structure FileInfo where
  kind : Str
  entities : List (Str × Str)
  baseWithoutSuffix : Str
  deriving DecidableEq

/-- The entity-collecting loop of `_describe_file`: segments without the dash
are skipped silently; only non-empty keys and values are recorded. -/
def describeEntities (segs : List Str) : List (Str × Str) :=
  segs.foldl (fun acc part =>
    match splitDash1 part with
    | none => acc
    | some (k, v) => if ¬ (k = []) ∧ ¬ (v = []) then odInsert acc k v else acc) []

/-- `BIDSEventImporter._describe_file`, applied to the file name. -/
def describeFile (name : Str) : Except String FileInfo :=
  match partsUnd (stripAllSuffixes name) with
  | [] => .error "filename is empty"
  | p :: ps =>
    let suffix := (p :: ps).getLast (List.cons_ne_nil p ps)
    if ¬ (suffix = str "events" ∨ suffix = str "physio") then
      .error "not an events or physio file"
    else
      let entities := describeEntities (p :: ps).dropLast
      if ¬ (hasKey entities (str "sub") = true ∧ hasKey entities (str "task") = true) then
        .error "missing required entities"
      else if emptyVal entities (str "ses") = true then
        .error "session entity must have a value"
      else if emptyVal entities (str "run") = true then
        .error "run entity must have a value"
      else .ok ⟨suffix, entities, joinUnd (p :: ps).dropLast⟩

/-- Python `", ".join` and friends. -/
def joinSep (sep : Str) : List Str → Str
  | [] => []
  | [s] => s
  | s :: t :: rest => s ++ sep ++ joinSep sep (t :: rest)

/-- Python `session or "N/A"` (empty string is falsy). -/
def sessionOrNA : Option Str → Str
  | none => str "N/A"
  | some s => if s = [] then str "N/A" else s

/-- The `NoReferenceFound` message of `_match_to_bold`. -/
def noBoldMsg (subject : Str) (session : Option Str) (task : Str) : String :=
  String.mk (str "No bold file found for subject " ++ subject ++ str ", session " ++
    sessionOrNA session ++ str ", task " ++ task)

/-- The `AmbiguousRun` message of `_match_to_bold`, listing every candidate
run label with a placeholder for run-less candidates. -/
def availableRunsMsg (cands : List (Option Str × MatchedBase)) : String :=
  String.mk (str "Multiple runs found; include run-<label> in the events filename. Available runs: "
    ++ joinSep (str ", ") (cands.map (fun m => m.1.getD (str "<none>"))))

/-- The `NoRunMatch` message of `_match_to_bold`. -/
def noRunMatchMsg (subject : Str) (session : Option Str) (task run : Str) : String :=
  String.mk (str "No bold file with run " ++ run ++ str " found for subject " ++ subject ++
    str ", session " ++ sessionOrNA session ++ str ", task " ++ task)

/-- `BIDSEventImporter._match_to_bold`.  The subject and task lookups use a
default for the total model; every caller guarantees both keys are present
(`_describe_file` requires them). -/
def matchToBold (info : FileInfo) (fullMap : FullMap) (taskMap : TaskMap) :
    Except String MatchedBase :=
  let subject := (alookup info.entities (str "sub")).getD []
  let session := normalizeNumeric (alookup info.entities (str "ses"))
  let task := (alookup info.entities (str "task")).getD []
  let run := normalizeNumeric (alookup info.entities (str "run"))
  match run, alookup fullMap (subject, session, task, run) with
  | some _, some mb => .ok mb
  | _, _ =>
    match (alookup taskMap (subject, session, task)).getD [] with
    | [] => .error (noBoldMsg subject session task)
    | m :: rest =>
      match run with
      | none =>
        if (m :: rest).length = 1 then .ok m.2
        else .error (availableRunsMsg (m :: rest))
      | some r =>
        match (m :: rest).filter (fun c => c.1 = some r) with
        | c :: _ => .ok c.2
        | [] =>
          -- run provided but no exact match; fall back to a run-less bold if unique
          match (m :: rest).filter (fun c => c.1 = (none : Option Str)) with
          | [f] => .ok f.2
          | _ => .error (noRunMatchMsg subject session task r)

/-- One scanned `*_bold.nii.gz` file, by its path components relative to the
BIDS root (the last component is the file name). -/
structure BoldFile where
  relParts : List Str
  deriving DecidableEq

/-- `BIDSEventImporter._extract_entities_from_base`: every dashed segment is
recorded, with no emptiness checks. -/
def extractEntitiesFromBase (baseName : Str) : List (Str × Str) :=
  (splitUnd baseName).foldl (fun acc segment =>
    match splitDash1 segment with
    | none => acc
    | some (k, v) => odInsert acc k v) []

/-- `BIDSEventImporter._remove_trailing_suffix`. -/
def removeTrailing (baseName sfx : Str) : Str :=
  if sfx.isSuffixOf baseName then baseName.take (baseName.length - sfx.length) else baseName

/-- The dict-append of `defaultdict(list)`: extend the bucket at `k`. -/
def bappend (m : TaskMap) (k : TaskKey) (b : Option Str × MatchedBase) : TaskMap :=
  if m.any (fun p => p.1 = k) then m.map (fun p => if p.1 = k then (p.1, p.2 ++ [b]) else p)
  else m ++ [(k, [b])]

/-- The per-file body of `BIDSEventImporter._index_bold_files`. -/
def indexBoldStep (maps : FullMap × TaskMap) (f : BoldFile) : FullMap × TaskMap :=
  if f.relParts.length < 3 then maps
  else
    match f.relParts.find? (fun part => (str "sub-").isPrefixOf part) with
    | none => maps
    | some subPart =>
      let sesPart := f.relParts.find? (fun part => (str "ses-").isPrefixOf part)
      let baseName := stripAllSuffixes (f.relParts.getLastD [])
      let entities := extractEntitiesFromBase baseName
      match alookup entities (str "task") with
      | none => maps
      | some task =>
        if task = [] then maps
        else
          let subjectValue := replaceAll subPart (str "sub-") []
          let sessionValue := normalizeNumeric (pyOrStr (alookup entities (str "ses"))
            (sesPart.map (fun sp => replaceAll sp (str "ses-") [])))
          let runValue := normalizeNumeric (alookup entities (str "run"))
          let baseCore := removeTrailing baseName (str "_bold")
          let matched : MatchedBase := ⟨baseCore, f.relParts.dropLast⟩
          (dictInsert maps.1 (subjectValue, sessionValue, task, runValue) matched,
           bappend maps.2 (subjectValue, sessionValue, task) (runValue, matched))

/-- `BIDSEventImporter._index_bold_files` over the scanned bold files. -/
def indexBoldFiles (files : List BoldFile) : FullMap × TaskMap :=
  files.foldl indexBoldStep ([], [])

/-- CPython `PurePath.suffix`: the last dot-suffix, empty when the only dot
is leading or trailing. -/
def lastDotSuffix (name : Str) : Str :=
  if '.' ∈ name then
    let after := name.reverse.takeWhile (fun c => ¬ (c = '.'))
    if 0 < name.length - 1 - after.length ∧ ¬ (after = []) then '.' :: after.reverse else []
  else []

/-- `source_file.suffix == ".gz" or source_file.name.endswith(".tsv.gz")`. -/
def isGzName (name : Str) : Bool :=
  lastDotSuffix name = str ".gz" || (str ".tsv.gz").isSuffixOf name

/-- One source file offered for import: its name, plus content oracles for
the event-line count and the physio JSON sidecar existence (both functions of
the source directory content, identical between a dry and a live pass). -/
structure SourceFile where
  dir : Path
  name : Str
  linesOk : Bool
  jsonExists : Bool
  deriving DecidableEq

/-- The accumulated state of the `import_files` loop. -/
structure ImportAcc where
  copied : List Path
  skipped : List (Str × String)
  errors : List (Str × String)
  fs : FS

/-- The JSON sidecar target of a physio file. -/
def jsonTarget (matched : MatchedBase) : Path :=
  matched.modalityDir ++ [matched.base ++ str "_physio.json"]

/-- `BIDSEventImporter._copy_physio_json`: only the target filesystem effect
is modelled (logging aside, the function changes nothing else). -/
def copyPhysioJson (dryRun overwrite : Bool) (f : SourceFile) (matched : MatchedBase)
    (fs : FS) : FS :=
  if f.jsonExists = false then fs
  else if existsAt fs (jsonTarget matched) = true ∧ overwrite = false then fs
  else if dryRun then fs
  else fsSetFile fs (jsonTarget matched) true

/-- The copy target of a source file, given its description and its matched
reference (`{base}_events.tsv` / `{base}_physio.tsv`, plus `.gz` when the
source is compressed). -/
def importTarget (f : SourceFile) (info : FileInfo) (matched : MatchedBase) : Path :=
  matched.modalityDir ++
    [(if info.kind = str "events" then matched.base ++ str "_events.tsv"
      else matched.base ++ str "_physio.tsv") ++
     (if isGzName f.name then str ".gz" else [])]

/-- The per-file body of `BIDSEventImporter.import_files`: describe, check
event length, match, mkdir (before the dry-run check), existence/overwrite
check, copy (or record the would-be copy in dry-run), and the physio JSON
side copy. -/
def importStep (dryRun overwrite : Bool) (fullMap : FullMap) (taskMap : TaskMap)
    (acc : ImportAcc) (f : SourceFile) : ImportAcc :=
  match describeFile f.name with
  | .error e => { acc with errors := acc.errors ++ [(f.name, e)] }
  | .ok info =>
    if info.kind = str "events" ∧ f.linesOk = false then
      { acc with skipped := acc.skipped ++ [(f.name, "events file too short")] }
    else
      match matchToBold info fullMap taskMap with
      | .error e => { acc with errors := acc.errors ++ [(f.name, e)] }
      | .ok matched =>
        if existsAt (fsMkdirParents acc.fs matched.modalityDir)
            (importTarget f info matched) = true ∧ overwrite = false then
          { acc with
            skipped := acc.skipped ++ [(f.name, "already exists")]
            fs := fsMkdirParents acc.fs matched.modalityDir }
        else
          let fs2 := if dryRun then fsMkdirParents acc.fs matched.modalityDir
            else fsSetFile (fsMkdirParents acc.fs matched.modalityDir)
              (importTarget f info matched) true
          { acc with
            copied := acc.copied ++ [importTarget f info matched]
            fs := if info.kind = str "physio" then
                copyPhysioJson dryRun overwrite f matched fs2
              else fs2 }

/-- The `import_files` loop over the collected source files. -/
def importFiles (dryRun overwrite : Bool) (fullMap : FullMap) (taskMap : TaskMap)
    (files : List SourceFile) (fs0 : FS) : ImportAcc :=
  files.foldl (importStep dryRun overwrite fullMap taskMap) ⟨[], [], [], fs0⟩

/-- The file paths a source file may write in live mode (its copy target and,
for physio files, the JSON sidecar target); empty when the file is classified
as an error or skipped before the copy stage.  Determined by the indexes and
the file alone — never by the filesystem. -/
def plannedWrites (fullMap : FullMap) (taskMap : TaskMap) (f : SourceFile) : List Path :=
  match describeFile f.name with
  | .error _ => []
  | .ok info =>
    if info.kind = str "events" ∧ f.linesOk = false then []
    else
      match matchToBold info fullMap taskMap with
      | .error _ => []
      | .ok matched =>
        [importTarget f info matched] ++
          (if info.kind = str "physio" then [jsonTarget matched] else [])

/-! ### C10: index linking invariant -/

/-- The linking invariant between the two indexes: every task-index candidate
with a run label has its full key in the exact index. -/
def IndexInv (maps : FullMap × TaskMap) : Prop :=
  ∀ tk cands r mb,
    alookup maps.2 tk = some cands →
    (some r, mb) ∈ cands →
    (alookup maps.1 (tk.1, tk.2.1, tk.2.2, some r)).isSome = true

/-- Reference maps for the dry-run scenarios: a single run-1 bold file for
subject 01, task x. -/
def mbRun1 : MatchedBase := ⟨str "sub-01_task-x_run-1", [str "sub-01", str "func"]⟩

/-- The exact index of the dry-run scenarios. -/
def fullMap1 : FullMap := [((str "01", none, str "x", some (str "1")), mbRun1)]

/-- The relaxed index of the dry-run scenarios. -/
def taskMap1 : TaskMap := [((str "01", none, str "x"), [(some (str "1"), mbRun1)])]

/-- Two source files with different names whose normalized runs coincide, so
both resolve to the same copy target. -/
def srcRun01 : SourceFile := ⟨[], str "sub-01_task-x_run-01_events.tsv", true, false⟩

/-- The second colliding source file. -/
def srcRun1 : SourceFile := ⟨[], str "sub-01_task-x_run-1_events.tsv", true, false⟩

theorem splitUnd_ne_nil (l : Str) : splitUnd l ≠ [] := by
  cases l with
  | nil => simp [splitUnd]
  | cons c cs =>
    simp only [splitUnd]
    by_cases h : c = '_'
    · simp [h]
    · simp only [if_neg h]
      cases splitUnd cs <;> simp

theorem not_und_of_mem_splitUnd {l : Str} {s : Str} (hs : s ∈ splitUnd l) : '_' ∉ s := by
  induction l generalizing s with
  | nil =>
    simp [splitUnd] at hs
    simp [hs]
  | cons c cs ih =>
    simp only [splitUnd] at hs
    by_cases h : c = '_'
    · rw [if_pos h] at hs
      rcases List.mem_cons.mp hs with h1 | h1
      · simp [h1]
      · exact ih h1
    · rw [if_neg h] at hs
      rcases hsp : splitUnd cs with _ | ⟨t, rest⟩
      · exact absurd hsp (splitUnd_ne_nil cs)
      · rw [hsp] at hs
        rcases List.mem_cons.mp hs with h1 | h1
        · subst h1
          intro hmem
          rcases List.mem_cons.mp hmem with h2 | h2
          · exact h h2.symm
          · exact ih (hsp ▸ List.mem_cons_self t rest) h2
        · exact ih (hsp ▸ List.mem_cons_of_mem t h1)

theorem joinUnd_cons_of_ne_nil (s : Str) {ss : List Str} (h : ss ≠ []) :
    joinUnd (s :: ss) = s ++ '_' :: joinUnd ss := by
  cases ss with
  | nil => exact absurd rfl h
  | cons t rest => rfl

theorem joinUnd_splitUnd (l : Str) : joinUnd (splitUnd l) = l := by
  induction l with
  | nil => rfl
  | cons c cs ih =>
    simp only [splitUnd]
    by_cases h : c = '_'
    · rw [if_pos h, joinUnd_cons_of_ne_nil _ (splitUnd_ne_nil cs), ih, h]
      rfl
    · rw [if_neg h]
      rcases hsp : splitUnd cs with _ | ⟨t, rest⟩
      · exact absurd hsp (splitUnd_ne_nil cs)
      · rw [hsp] at ih
        cases rest with
        | nil =>
          simp only [joinUnd] at ih ⊢
          rw [ih]
        | cons u us =>
          rw [joinUnd_cons_of_ne_nil _ (by simp)] at ih
          rw [joinUnd_cons_of_ne_nil _ (by simp), List.cons_append, ih]

theorem collapseUnd_cons_ne {c : Char} (hc : c ≠ '_') (t : Str) :
    collapseUnd (c :: t) = c :: collapseUnd t := by
  cases t with
  | nil => rfl
  | cons d rest =>
    simp only [collapseUnd]
    rw [if_neg (fun hh => hc hh.1)]

theorem collapseUnd_no_und {l : Str} (h : '_' ∉ l) : collapseUnd l = l := by
  induction l with
  | nil => rfl
  | cons c cs ih =>
    have hc : c ≠ '_' := fun hh => h (hh ▸ List.mem_cons_self c cs)
    rw [collapseUnd_cons_ne hc, ih (fun hh => h (List.mem_cons_of_mem c hh))]

theorem collapseUnd_cons_und (t : Str) :
    collapseUnd ('_' :: t) = '_' :: collapseUnd (t.dropWhile (fun c => c = '_')) := by
  induction t with
  | nil => rfl
  | cons d rest ih =>
    by_cases hd : d = '_'
    · subst hd
      have h1 : collapseUnd ('_' :: '_' :: rest) = collapseUnd ('_' :: rest) := by
        simp [collapseUnd]
      rw [h1, ih, List.dropWhile_cons]
      simp
    · have h1 : collapseUnd ('_' :: d :: rest) = '_' :: collapseUnd (d :: rest) := by
        simp only [collapseUnd]
        rw [if_neg (fun hh => hd hh.2)]
      rw [h1, List.dropWhile_cons]
      simp [hd]

theorem collapseUnd_append_seg {s : Str} (hne : s ≠ []) (hs : '_' ∉ s) (t : Str) :
    collapseUnd (s ++ '_' :: t) = s ++ collapseUnd ('_' :: t) := by
  induction s with
  | nil => exact absurd rfl hne
  | cons c cs ih =>
    have hc : c ≠ '_' := fun hh => hs (hh ▸ List.mem_cons_self c cs)
    cases cs with
    | nil =>
      rw [List.cons_append, List.nil_append, collapseUnd_cons_ne hc]
      rfl
    | cons d ds =>
      rw [List.cons_append, collapseUnd_cons_ne hc,
        ih (by simp) (fun hh => hs (List.mem_cons_of_mem c hh)), List.cons_append]
      rfl

theorem ldropUnd_cons_ne {c : Char} (hc : c ≠ '_') (l : Str) :
    ldropUnd (c :: l) = c :: l := by
  simp [ldropUnd, List.dropWhile_cons, hc]

theorem ldropUnd_cons_und (l : Str) : ldropUnd ('_' :: l) = ldropUnd l := by
  simp [ldropUnd, List.dropWhile_cons]

theorem ldropUnd_no_und {l : Str} (h : '_' ∉ l) : ldropUnd l = l := by
  cases l with
  | nil => rfl
  | cons c cs =>
    exact ldropUnd_cons_ne (fun hh => h (hh ▸ List.mem_cons_self c cs)) cs

theorem rdropUnd_no_und {l : Str} (h : '_' ∉ l) : rdropUnd l = l := by
  have h2 : '_' ∉ l.reverse := fun hh => h (List.mem_reverse.mp hh)
  have h3 := ldropUnd_no_und h2
  unfold ldropUnd at h3
  unfold rdropUnd
  rw [h3, List.reverse_reverse]

theorem dropWhileUnd_append (p : Char → Bool) (l₁ l₂ : Str) :
    (l₁ ++ l₂).dropWhile p =
      if l₁.dropWhile p = [] then l₂.dropWhile p else l₁.dropWhile p ++ l₂ := by
  induction l₁ with
  | nil => simp
  | cons c cs ih =>
    by_cases hc : p c
    · rw [List.cons_append, List.dropWhile_cons_of_pos hc, ih, List.dropWhile_cons_of_pos hc]
    · rw [List.cons_append, List.dropWhile_cons_of_neg hc, List.dropWhile_cons_of_neg hc]
      simp

theorem rdropUnd_append (a b : Str) :
    rdropUnd (a ++ b) = if rdropUnd b = [] then rdropUnd a else a ++ rdropUnd b := by
  unfold rdropUnd
  rw [List.reverse_append, dropWhileUnd_append]
  by_cases h : b.reverse.dropWhile (fun c => c = '_') = []
  · rw [if_pos h, if_pos (by rw [h]; rfl)]
  · rw [if_neg h, if_neg (by simpa using h)]
    rw [List.reverse_append, List.reverse_reverse]

theorem stripUnd_cons_und (l : Str) : stripUnd ('_' :: l) = stripUnd l := by
  unfold stripUnd
  rw [ldropUnd_cons_und]

theorem stripUnd_collapseUnd_cons_und (t : Str) :
    stripUnd (collapseUnd ('_' :: t)) = stripUnd (collapseUnd t) := by
  cases t with
  | nil => decide
  | cons d rest =>
    by_cases hd : d = '_'
    · subst hd
      have h1 : collapseUnd ('_' :: '_' :: rest) = collapseUnd ('_' :: rest) := by
        simp [collapseUnd]
      rw [h1]
    · have h1 : collapseUnd ('_' :: d :: rest) = '_' :: collapseUnd (d :: rest) := by
        simp only [collapseUnd]
        rw [if_neg (fun hh => hd hh.2)]
      rw [h1, stripUnd_cons_und]

theorem head_dropWhile_false {p : Char → Bool} :
    ∀ {l : Str} {d : Char} {r : Str}, l.dropWhile p = d :: r → p d = false := by
  intro l
  induction l with
  | nil => intro d r h; simp at h
  | cons c cs ih =>
    intro d r h
    by_cases hc : p c
    · rw [List.dropWhile_cons_of_pos hc] at h
      exact ih h
    · rw [List.dropWhile_cons_of_neg hc] at h
      cases h
      exact Bool.eq_false_iff.mpr hc

theorem ldropUnd_collapseUnd_dropWhile (t : Str) :
    ldropUnd (collapseUnd (t.dropWhile (fun c => c = '_'))) =
      collapseUnd (t.dropWhile (fun c => c = '_')) := by
  rcases h : t.dropWhile (fun c => c = '_') with _ | ⟨d, r⟩
  · rfl
  · have hd : d ≠ '_' := by
      have := head_dropWhile_false h
      exact of_decide_eq_false this
    rw [collapseUnd_cons_ne hd, ldropUnd_cons_ne hd]

theorem joinUnd_eq_nil_of_nonempty {ss : List Str}
    (h : ∀ s ∈ ss, s ≠ []) (hj : joinUnd ss = []) : ss = [] := by
  cases ss with
  | nil => rfl
  | cons s rest =>
    cases rest with
    | nil =>
      exact absurd hj (by simpa [joinUnd] using h s (List.mem_cons_self s []))
    | cons t us =>
      rw [joinUnd_cons_of_ne_nil _ (by simp)] at hj
      rcases List.append_eq_nil.mp hj with ⟨_, h2⟩
      simp at h2

theorem ne_nil_of_mem_filter_nonempty {ss : List Str} {u : Str}
    (hu : u ∈ ss.filter (fun s => !s.isEmpty)) : u ≠ [] := by
  have := List.of_mem_filter hu
  simpa using this

/-- Core normalization law: collapsing separator runs and stripping outer
separators over a separator-join equals the join of the non-empty pieces. -/
theorem stripUnd_collapseUnd_joinUnd (ss : List Str) (h : ∀ s ∈ ss, '_' ∉ s) :
    stripUnd (collapseUnd (joinUnd ss)) = joinUnd (ss.filter (fun s => !s.isEmpty)) := by
  induction ss with
  | nil => rfl
  | cons s rest ih =>
    have hs : '_' ∉ s := h s (List.mem_cons_self s rest)
    have hrest : ∀ u ∈ rest, '_' ∉ u := fun u hu => h u (List.mem_cons_of_mem s hu)
    cases rest with
    | nil =>
      rcases hsnil : s with _ | ⟨c, cs⟩
      · decide
      · rw [← hsnil]
        show stripUnd (collapseUnd (joinUnd [s])) = _
        have hj : joinUnd [s] = s := rfl
        have hfil : [s].filter (fun u => !u.isEmpty) = [s] := by
          simp [List.filter_cons, hsnil]
        rw [hj, collapseUnd_no_und hs, hfil]
        show stripUnd s = joinUnd [s]
        have hc : c ≠ '_' := fun hh => hs (by rw [hsnil, hh]; exact List.mem_cons_self _ _)
        unfold stripUnd
        rw [hsnil, ldropUnd_cons_ne hc, ← hsnil, rdropUnd_no_und hs]
        rfl
    | cons t us =>
      have hJ := ih hrest
      rcases hsnil : s with _ | ⟨c, cs⟩
      · -- head piece empty: its separator is stripped away with the rest
        rw [joinUnd_cons_of_ne_nil _ (by simp), List.nil_append,
          stripUnd_collapseUnd_cons_und, hJ]
        simp [List.filter_cons]
      · rw [← hsnil]
        have hc : c ≠ '_' := fun hh => hs (by rw [hsnil, hh]; exact List.mem_cons_self _ _)
        rw [joinUnd_cons_of_ne_nil _ (by simp),
          collapseUnd_append_seg (by rw [hsnil]; simp) hs,
          collapseUnd_cons_und]
        set y := collapseUnd ((joinUnd (t :: us)).dropWhile (fun c => c = '_')) with hy
        have hyd : ldropUnd y = y := ldropUnd_collapseUnd_dropWhile _
        -- the IH value, expressed through `rdropUnd y`
        have hFy : rdropUnd y = joinUnd ((t :: us).filter (fun u => !u.isEmpty)) := by
          rw [← hJ]
          have h1 : stripUnd (collapseUnd (joinUnd (t :: us))) =
              stripUnd (collapseUnd ('_' :: joinUnd (t :: us))) :=
            (stripUnd_collapseUnd_cons_und _).symm
          rw [h1, collapseUnd_cons_und, ← hy]
          unfold stripUnd
          rw [ldropUnd_cons_und, hyd]
        -- strip over the assembled name
        unfold stripUnd
        have hld : ldropUnd (s ++ '_' :: y) = s ++ '_' :: y := by
          rw [hsnil, List.cons_append, ldropUnd_cons_ne hc]
        rw [hld, rdropUnd_append]
        have hsing : rdropUnd ('_' :: y) =
            if rdropUnd y = [] then [] else '_' :: rdropUnd y := by
          have h2 := rdropUnd_append ['_'] y
          have h3 : rdropUnd ['_'] = ([] : Str) := by decide
          rw [h3] at h2
          simpa using h2
        rw [hsing, hFy]
        by_cases hF : joinUnd ((t :: us).filter (fun u => !u.isEmpty)) = []
        · rw [if_pos hF, if_pos rfl, rdropUnd_no_und hs]
          have hfil0 : (t :: us).filter (fun u => !u.isEmpty) = [] :=
            joinUnd_eq_nil_of_nonempty (fun u hu => ne_nil_of_mem_filter_nonempty hu) hF
          have : (s :: t :: us).filter (fun u => !u.isEmpty) = [s] := by
            rw [List.filter_cons, hfil0]
            simp [hsnil]
          rw [this]
          rfl
        · rw [if_neg hF, if_neg (by simp [hF])]
          have hfne : (t :: us).filter (fun u => !u.isEmpty) ≠ [] := by
            intro hh
            exact hF (by rw [hh]; rfl)
          have : (s :: t :: us).filter (fun u => !u.isEmpty) =
              s :: (t :: us).filter (fun u => !u.isEmpty) := by
            rw [List.filter_cons]
            simp [hsnil]
          rw [this, joinUnd_cons_of_ne_nil _ hfne]

/-- `_normalize_base` equals joining the non-empty underscore-split pieces. -/
theorem normalizeBase_eq_joinUnd_parts (l : Str) :
    normalizeBase l = joinUnd (partsUnd l) := by
  have h := stripUnd_collapseUnd_joinUnd (splitUnd l)
    (fun s hs => not_und_of_mem_splitUnd hs)
  rw [joinUnd_splitUnd] at h
  exact h

/-! ### Basic codec lemmas -/

theorem splitDash1_some {s k v : Str} (h : splitDash1 s = some (k, v)) :
    k = segKey s ∧ v = segVal s ∧ s = k ++ '-' :: v := by
  unfold splitDash1 at h
  by_cases hd : '-' ∈ s
  · rw [if_pos hd] at h
    simp only [Option.some.injEq, Prod.mk.injEq] at h
    obtain ⟨hk, hv⟩ := h
    refine ⟨hk.symm, hv.symm, ?_⟩
    rcases hdw : s.dropWhile (fun c => ¬ (c = '-')) with _ | ⟨d, r⟩
    · exfalso
      have hself : s.takeWhile (fun c => ¬ (c = '-')) = s := by
        have := List.takeWhile_append_dropWhile (p := fun c => ¬ (c = '-')) (l := s)
        rw [hdw, List.append_nil] at this
        exact this
      have := List.mem_takeWhile_imp (l := s) (p := fun c => ¬ (c = '-'))
        (by rw [hself]; exact hd)
      simp at this
    · have hdash : d = '-' := by
        have := head_dropWhile_false hdw
        simpa using this
      subst hdash
      have hsplit := List.takeWhile_append_dropWhile (p := fun c => ¬ (c = '-')) (l := s)
      rw [hdw] at hsplit
      rw [← hk, ← hv]
      unfold segKey segVal
      rw [hdw]
      exact hsplit.symm
  · rw [if_neg hd] at h
    exact absurd h (by simp)

theorem odInsert_of_not_mem {m : List (Str × Str)} {k : Str} (v : Str)
    (h : k ∉ m.map Prod.fst) : odInsert m k v = m ++ [(k, v)] := by
  unfold odInsert
  rw [if_neg]
  simp only [List.any_eq_true, decide_eq_true_eq, not_exists]
  intro p hpe
  exact h (hpe.2 ▸ List.mem_map_of_mem Prod.fst hpe.1)

/-- Under distinct keys, the entity loop returns the segments in order as
key/value pairs, so that re-joining them reproduces the segments exactly. -/
theorem parseEntitiesAux_map_kv :
    ∀ {segs : List Str} {acc ents : List (Str × Str)},
      parseEntitiesAux acc segs = .ok ents →
      (acc.map Prod.fst ++ segs.map segKey).Nodup →
      ents.map (fun e => e.1 ++ '-' :: e.2) =
        acc.map (fun e => e.1 ++ '-' :: e.2) ++ segs := by
  intro segs
  induction segs with
  | nil =>
    intro acc ents h _
    simp only [parseEntitiesAux] at h
    cases h
    simp
  | cons seg rest ih =>
    intro acc ents h hnd
    simp only [parseEntitiesAux] at h
    split at h
    · exact absurd h (by simp)
    · rename_i k v hsp
      split at h
      · exact absurd h (by simp)
      · rename_i hkv
        obtain ⟨hk, hv, hseg⟩ := splitDash1_some hsp
        have hknotin : k ∉ acc.map Prod.fst := by
          intro hmem
          rw [List.map_cons, ← hk] at hnd
          have := (List.nodup_append.mp hnd).2.2
          exact this hmem (List.mem_cons_self _ _)
        rw [odInsert_of_not_mem v hknotin] at h
        have hnd2 : ((acc ++ [(k, v)]).map Prod.fst ++ rest.map segKey).Nodup := by
          have h1 : (acc.map Prod.fst ++ k :: rest.map segKey).Nodup := by
            rw [hk]
            simpa using hnd
          simpa using h1
        have := ih h hnd2
        rw [this, List.map_append]
        simp only [List.map_cons, List.map_nil]
        rw [List.append_assoc]
        simp [← hseg]

theorem parseBidsName_ok {n : Str} {ents : List (Str × Str)} {sfx : Str}
    (h : parseBidsName n = .ok (ents, sfx)) :
    partsUnd n ≠ [] ∧
    (∀ hne : partsUnd n ≠ [], sfx = (partsUnd n).getLast hne) ∧
    parseEntitiesAux [] (partsUnd n).dropLast = .ok ents := by
  unfold parseBidsName at h
  split at h
  · exact absurd h (by simp)
  · rename_i p ps hp
    rw [hp]
    split at h
    · exact absurd h (by simp)
    · rename_i ents2 he
      split at h
      · simp only [Except.ok.injEq, Prod.mk.injEq] at h
        obtain ⟨h1, h2⟩ := h
        subst h1
        subst h2
        exact ⟨by simp, fun _ => rfl, he⟩
      · exact absurd h (by simp)

/-- C1 (amended): for every name accepted by `_parse_bids_name` whose
non-final segments have pairwise distinct keys and whose final segment passes
the suffix pattern, rebuilding with `_build_bids_name` and normalizing with
`_normalize_base` reproduces `_normalize_base` of the original name. -/
theorem c1_round_trip (n : Str) (ents : List (Str × Str)) (sfx : Str)
    (hp : parseBidsName n = .ok (ents, sfx))
    (hnd : ((partsUnd n).dropLast.map segKey).Nodup)
    (hsfx : isAlphaNumStr sfx = true) :
    buildBidsName ents sfx = .ok (normalizeBase n) := by
  obtain ⟨hne, hlast, hents⟩ := parseBidsName_ok hp
  have hkv := parseEntitiesAux_map_kv hents (by simpa using hnd)
  unfold buildBidsName
  rw [if_neg (by simp [hsfx])]
  rw [hkv]
  simp only [List.map_nil, List.nil_append]
  rw [hlast hne, List.dropLast_append_getLast hne]
  rw [normalizeBase_eq_joinUnd_parts]

/-- C1 witness: a concrete round trip through parse, build and normalize. -/
theorem c1_round_trip_witness :
    buildBidsName [(str "sub", str "01"), (str "task", str "rest")] (str "bold") =
      .ok (normalizeBase (str "sub-01_task-rest_bold")) :=
  c1_round_trip (str "sub-01_task-rest_bold")
    [(str "sub", str "01"), (str "task", str "rest")] (str "bold")
    (by decide) (by decide) (by decide)

/-- C1 counterexample: a name with a duplicate attribute key parses
successfully, but rebuilding collapses the duplicate segments, so the
round-trip contract fails as stated. -/
theorem c1_counterexample :
    parseBidsName (str "sub-01_sub-02_bold") =
      .ok ([(str "sub", str "02")], str "bold") ∧
    buildBidsName [(str "sub", str "02")] (str "bold") = .ok (str "sub-02_bold") ∧
    normalizeBase (str "sub-01_sub-02_bold") = str "sub-01_sub-02_bold" ∧
    str "sub-02_bold" ≠ str "sub-01_sub-02_bold" := by
  refine ⟨by decide, by decide, by decide, by decide⟩

/-! ### Alphanumeric pattern facts -/

theorem isAlphaNumStr_all {s : Str} (h : isAlphaNumStr s = true) :
    s ≠ [] ∧ ∀ c ∈ s, (c.isAlpha || c.isDigit) = true := by
  unfold isAlphaNumStr at h
  rw [Bool.and_eq_true] at h
  constructor
  · intro hnil
    rw [hnil] at h
    simp at h
  · intro c hc
    have := h.2
    rw [List.all_eq_true] at this
    exact this c hc

theorem not_und_of_isAlphaNumStr {s : Str} (h : isAlphaNumStr s = true) : '_' ∉ s := by
  intro hm
  have := (isAlphaNumStr_all h).2 _ hm
  exact absurd this (by decide)

/-! ### Split/join recovery for well-formed segments -/

theorem splitUnd_no_und {s : Str} (h : '_' ∉ s) : splitUnd s = [s] := by
  induction s with
  | nil => rfl
  | cons c cs ih =>
    have hc : c ≠ '_' := fun hh => h (hh ▸ List.mem_cons_self c cs)
    simp only [splitUnd, if_neg hc]
    rw [ih (fun hh => h (List.mem_cons_of_mem c hh))]

theorem splitUnd_append_und {s : Str} (h : '_' ∉ s) (t : Str) :
    splitUnd (s ++ '_' :: t) = s :: splitUnd t := by
  induction s with
  | nil => simp [splitUnd]
  | cons c cs ih =>
    have hc : c ≠ '_' := fun hh => h (hh ▸ List.mem_cons_self c cs)
    rw [List.cons_append]
    simp only [splitUnd, if_neg hc]
    rw [ih (fun hh => h (List.mem_cons_of_mem c hh))]

theorem splitUnd_joinUnd {segs : List Str} (h : ∀ s ∈ segs, '_' ∉ s) (hne : segs ≠ []) :
    splitUnd (joinUnd segs) = segs := by
  induction segs with
  | nil => exact absurd rfl hne
  | cons s rest ih =>
    cases rest with
    | nil => exact splitUnd_no_und (h s (List.mem_cons_self s []))
    | cons t us =>
      rw [joinUnd_cons_of_ne_nil _ (by simp),
        splitUnd_append_und (h s (List.mem_cons_self s _)),
        ih (fun u hu => h u (List.mem_cons_of_mem s hu)) (by simp)]

theorem partsUnd_joinUnd {segs : List Str}
    (h : ∀ s ∈ segs, '_' ∉ s) (hn : ∀ s ∈ segs, s ≠ []) (hne : segs ≠ []) :
    partsUnd (joinUnd segs) = segs := by
  unfold partsUnd
  rw [splitUnd_joinUnd h hne]
  rw [List.filter_eq_self.mpr]
  intro s hs
  simpa using hn s hs

/-! ### C7: build ordering -/

/-- C7 (amended): `_build_bids_name` validates only the tag and emits the
key-value segments in the iteration order of the attribute map, tag last; for
well-formed entries, splitting the emitted name recovers exactly those
segments in map order.  Canonical ordering of the output therefore holds
exactly when the input map is already canonically ordered; build itself does
not reorder. -/
theorem c7_build_emission (ents : List (Str × Str)) (sfx : Str)
    (hsfx : isAlphaNumStr sfx = true)
    (hwf : ∀ e ∈ ents, e.1 ≠ [] ∧ '_' ∉ e.1 ∧ '_' ∉ e.2) :
    buildBidsName ents sfx =
      .ok (joinUnd ((ents.map (fun e => e.1 ++ '-' :: e.2)) ++ [sfx])) ∧
    partsUnd (joinUnd ((ents.map (fun e => e.1 ++ '-' :: e.2)) ++ [sfx])) =
      (ents.map (fun e => e.1 ++ '-' :: e.2)) ++ [sfx] := by
  constructor
  · unfold buildBidsName
    rw [if_neg (by simp [hsfx])]
  · apply partsUnd_joinUnd
    · intro s hs
      rcases List.mem_append.mp hs with hs | hs
      · obtain ⟨e, he, rfl⟩ := List.mem_map.mp hs
        obtain ⟨-, hk, hv⟩ := hwf e he
        intro hmem
        rcases List.mem_append.mp hmem with hm | hm
        · exact hk hm
        · rcases List.mem_cons.mp hm with hm | hm
          · exact absurd hm (by decide)
          · exact hv hm
      · rw [List.mem_singleton.mp hs]
        exact not_und_of_isAlphaNumStr hsfx
    · intro s hs
      rcases List.mem_append.mp hs with hs | hs
      · obtain ⟨e, he, rfl⟩ := List.mem_map.mp hs
        obtain ⟨hk, -, -⟩ := hwf e he
        simp [hk]
      · rw [List.mem_singleton.mp hs]
        exact (isAlphaNumStr_all hsfx).1
    · simp

/-- C7 witness: a concrete application of the emission law. -/
theorem c7_build_emission_witness :
    buildBidsName [(str "sub", str "01"), (str "task", str "rest")] (str "bold") =
      .ok (joinUnd (([(str "sub", str "01"), (str "task", str "rest")].map
        (fun e => e.1 ++ '-' :: e.2)) ++ [str "bold"])) ∧
    partsUnd (joinUnd (([(str "sub", str "01"), (str "task", str "rest")].map
        (fun e => e.1 ++ '-' :: e.2)) ++ [str "bold"])) =
      ([(str "sub", str "01"), (str "task", str "rest")].map
        (fun e => e.1 ++ '-' :: e.2)) ++ [str "bold"] :=
  c7_build_emission [(str "sub", str "01"), (str "task", str "rest")] (str "bold")
    (by decide) (by decide)

/-- C7 counterexample: build on a non-canonically ordered map emits the map
order unchanged, so the emitted segments are not in the canonical priority
order (`task` before `sub`). -/
theorem c7_counterexample :
    buildBidsName [(str "task", str "x"), (str "sub", str "01")] (str "bold") =
      .ok (str "task-x_sub-01_bold") ∧
    partsUnd (str "task-x_sub-01_bold") = [str "task-x", str "sub-01", str "bold"] ∧
    ¬ ([str "task", str "sub"].Pairwise
        (fun a b => entityOrderIndex a ≤ entityOrderIndex b)) := by
  refine ⟨by decide, by decide, by decide⟩

theorem insertPass_mem {tI : Nat} {kv : Str × Str} :
    ∀ {ents : List (Str × Str)} {x : Str × Str},
      x ∈ (insertPass tI kv ents).1 → x = kv ∨ x ∈ ents := by
  intro ents
  induction ents with
  | nil =>
    intro x hx
    simp [insertPass] at hx
  | cons e es ih =>
    intro x hx
    simp only [insertPass] at hx
    by_cases hlt : tI < entityOrderIndex e.1
    · rw [if_pos hlt] at hx
      rcases List.mem_cons.mp hx with h1 | h1
      · exact Or.inl h1
      · exact Or.inr h1
    · rw [if_neg hlt] at hx
      rcases List.mem_cons.mp hx with h1 | h1
      · exact Or.inr (h1 ▸ List.mem_cons_self e es)
      · rcases ih h1 with h2 | h2
        · exact Or.inl h2
        · exact Or.inr (List.mem_cons_of_mem e h2)

theorem insertPass_not_inserted {tI : Nat} {kv : Str × Str} :
    ∀ {ents : List (Str × Str)}, (insertPass tI kv ents).2 = false →
      (insertPass tI kv ents).1 = ents ∧
      ∀ e ∈ ents, entityOrderIndex e.1 ≤ tI := by
  intro ents
  induction ents with
  | nil => intro _; exact ⟨rfl, by simp⟩
  | cons e es ih =>
    intro h
    simp only [insertPass] at h ⊢
    by_cases hlt : tI < entityOrderIndex e.1
    · rw [if_pos hlt] at h
      simp at h
    · rw [if_neg hlt] at h ⊢
      simp only at h
      obtain ⟨h1, h2⟩ := ih h
      refine ⟨by rw [h1], ?_⟩
      intro x hx
      rcases List.mem_cons.mp hx with h3 | h3
      · subst h3; omega
      · exact h2 x h3

theorem insertPass_sorted {tI : Nat} {kv : Str × Str} (hkv : entityOrderIndex kv.1 = tI) :
    ∀ {ents : List (Str × Str)}, ents.Pairwise EntOrd →
      (insertPass tI kv ents).1.Pairwise EntOrd := by
  intro ents
  induction ents with
  | nil =>
    intro _
    simp [insertPass]
  | cons e es ih =>
    intro hs
    rw [List.pairwise_cons] at hs
    obtain ⟨he, hes⟩ := hs
    simp only [insertPass]
    by_cases hlt : tI < entityOrderIndex e.1
    · rw [if_pos hlt]
      refine List.Pairwise.cons ?_ (List.Pairwise.cons he hes)
      intro y hy
      rcases List.mem_cons.mp hy with h1 | h1
      · subst h1
        unfold EntOrd
        omega
      · have := he y h1
        unfold EntOrd at this ⊢
        omega
    · rw [if_neg hlt]
      refine List.Pairwise.cons ?_ (ih hes)
      intro y hy
      rcases insertPass_mem hy with h1 | h1
      · subst h1
        unfold EntOrd
        omega
      · exact he y h1

theorem insertOrUpdateEntity_sorted {ents ents' : List (Str × Str)} {k v : Str}
    (h : insertOrUpdateEntity ents k v = .ok ents')
    (hs : ents.Pairwise EntOrd) : ents'.Pairwise EntOrd := by
  simp only [insertOrUpdateEntity] at h
  by_cases hv : isAlphaNumStr (pyStrip v) = true
  · rw [if_neg (by simp [hv])] at h
    by_cases hmem : ents.any (fun p => p.1 = k) = true
    · -- update-in-place branch: keys unchanged
      rw [if_pos hmem] at h
      simp only [Except.ok.injEq] at h
      subst h
      rw [List.pairwise_map]
      have hidx : ∀ p : Str × Str,
          entityOrderIndex (if p.1 = k then (k, pyStrip v) else p).1 =
            entityOrderIndex p.1 := by
        intro p
        by_cases hp : p.1 = k <;> simp [hp]
      refine hs.imp ?_
      intro a b hab
      unfold EntOrd at hab ⊢
      rw [hidx a, hidx b]
      exact hab
    · -- insertion branch
      rw [if_neg hmem] at h
      simp only [Except.ok.injEq] at h
      subst h
      by_cases hins : (insertPass (entityOrderIndex k) (k, pyStrip v) ents).2 = true
      · rw [if_pos hins]
        exact @insertPass_sorted (entityOrderIndex k) (k, pyStrip v) rfl _ hs
      · rw [if_neg hins]
        have hfalse : (insertPass (entityOrderIndex k) (k, pyStrip v) ents).2 = false := by
          revert hins
          cases (insertPass (entityOrderIndex k) (k, pyStrip v) ents).2 <;> simp
        obtain ⟨h1, h2⟩ := insertPass_not_inserted hfalse
        rw [h1, List.pairwise_append]
        refine ⟨hs, by simp, ?_⟩
        intro a ha b hb
        rw [List.mem_singleton.mp hb]
        unfold EntOrd
        exact h2 a ha
  · rw [if_pos (by simp [hv])] at h
    exact absurd h (by simp)

/-- C8 (amended): starting from an attribute map whose keys are already in
canonical priority order, applying any sequence of entity insertions/updates
(in any request order) through the set-entities loop keeps the keys in
canonical priority order: each brand-new key is placed at the position
dictated by the canonical list, not appended in arrival order. -/
theorem c8_insertion_sorted (ents : List (Str × Str)) (ins : List (Str × Str))
    (ents' : List (Str × Str)) (hs : ents.Pairwise EntOrd)
    (h : setEntitiesLoop ents ins = .ok ents') : ents'.Pairwise EntOrd := by
  induction ins generalizing ents with
  | nil =>
    simp only [setEntitiesLoop] at h
    cases h
    exact hs
  | cons kv rest ih =>
    obtain ⟨k, v⟩ := kv
    simp only [setEntitiesLoop] at h
    split at h
    · exact absurd h (by simp)
    · split at h
      · exact absurd h (by simp)
      · rename_i ents2 hins
        exact ih ents2 (insertOrUpdateEntity_sorted hins hs) h

/-- C8 witness: inserting `task` then `ses` (a non-canonical request order)
into a sorted map yields a canonically sorted result. -/
theorem c8_insertion_sorted_witness :
    setEntitiesLoop [(str "sub", str "01")] [(str "task", str "x"), (str "ses", str "1")] =
      .ok [(str "sub", str "01"), (str "ses", str "1"), (str "task", str "x")] ∧
    [(str "sub", str "01"), (str "ses", str "1"), (str "task", str "x")].Pairwise EntOrd :=
  ⟨by decide,
    c8_insertion_sorted [(str "sub", str "01")]
      [(str "task", str "x"), (str "ses", str "1")]
      [(str "sub", str "01"), (str "ses", str "1"), (str "task", str "x")]
      (by decide) (by decide)⟩

/-- C8 counterexample: a successfully parsed but non-canonically ordered map
(`task` before `sub`) stays non-canonical under insertion: the new `ses` key
is inserted before `task`, and the rebuilt name has keys out of canonical
order, refuting the claim for arbitrary parsed maps. -/
theorem c8_counterexample :
    parseBidsName (str "task-x_sub-01_bold") =
      .ok ([(str "task", str "x"), (str "sub", str "01")], str "bold") ∧
    insertOrUpdateEntity [(str "task", str "x"), (str "sub", str "01")]
        (str "ses") (str "1") =
      .ok [(str "ses", str "1"), (str "task", str "x"), (str "sub", str "01")] ∧
    buildBidsName [(str "ses", str "1"), (str "task", str "x"), (str "sub", str "01")]
        (str "bold") = .ok (str "ses-1_task-x_sub-01_bold") ∧
    ¬ ([str "ses", str "task", str "sub"].Pairwise
        (fun a b => entityOrderIndex a ≤ entityOrderIndex b)) := by
  refine ⟨by decide, by decide, by decide, by decide⟩

/-! ### C5: protected attribute handling -/

theorem removeEntitiesLoop_sub {l : List Str} (h : str "sub" ∈ l) :
    ∀ ents, removeEntitiesLoop ents l = .error "Cannot remove mandatory sub entity" := by
  induction l with
  | nil => simp at h
  | cons e rest ih =>
    intro ents
    simp only [removeEntitiesLoop]
    by_cases he : e = str "sub"
    · rw [if_pos he]
    · rw [if_neg he]
      refine ih ?_ _
      rcases List.mem_cons.mp h with h1 | h1
      · exact absurd h1.symm he
      · exact h1

theorem transformBaseName_error_of_sub (cfg : RenameConfig) (baseName : Str)
    (h : str "sub" ∈ cfg.removeEntities) :
    ∃ e, transformBaseName cfg baseName = .error e := by
  unfold transformBaseName
  split
  · exact ⟨_, rfl⟩
  · rename_i ents sfx hp
    rw [removeEntitiesLoop_sub h ents]
    exact ⟨_, rfl⟩

/-- C5 (amended): when the mutation list asks to remove the subject key,
every file group fails its transformation (with the protected-attribute error
whenever its name parses), is recorded as an error and excluded from the
plan — and the loop continues through every remaining group rather than
aborting: the final plan is empty and the error list names every group in
order. -/
theorem c5_protected_no_abort (cfg : RenameConfig) (groups : List FileGroup)
    (h : str "sub" ∈ cfg.removeEntities) :
    planRenameAux cfg groups = .ok ([], groups.map (fun g => g.parent ++ [g.base])) ∧
    (∀ baseName ents sfx,
      parseBidsName (applySubstringOps cfg baseName) = .ok (ents, sfx) →
      transformBaseName cfg baseName = .error "Cannot remove mandatory sub entity") := by
  constructor
  · induction groups with
    | nil => rfl
    | cons g gs ih =>
      obtain ⟨e, he⟩ := transformBaseName_error_of_sub cfg g.base h
      simp [planRenameAux, he, ih]
  · intro baseName ents sfx hp
    unfold transformBaseName
    simp only [hp, removeEntitiesLoop_sub h ents]

/-- C5 witness: one group with the subject-removal configuration yields an
empty plan, the group listed as an error, and the protected-attribute
message. -/
theorem c5_protected_no_abort_witness :
    planRenameAux cfgRemoveSub [groupA] =
      .ok ([], [[str "sub-01", str "anat", str "sub-01_T1w"]]) ∧
    transformBaseName cfgRemoveSub (str "sub-01_T1w") =
      .error "Cannot remove mandatory sub entity" :=
  ⟨(c5_protected_no_abort cfgRemoveSub [groupA] (by decide)).1,
   (c5_protected_no_abort cfgRemoveSub [groupA] (by decide)).2 (str "sub-01_T1w")
     [(str "sub", str "01")] (str "T1w") (by decide)⟩

/-- C5 counterexample: with subject removal requested, the second group is
still processed after the first fails — the error list names both groups, so
the run does not abort after the first protected-attribute error. -/
theorem c5_counterexample :
    planRenameAux cfgRemoveSub [groupA, groupB] =
      .ok ([], [[str "sub-01", str "anat", str "sub-01_T1w"],
                [str "sub-02", str "anat", str "sub-02_T1w"]]) ∧
    ([[str "sub-01", str "anat", str "sub-01_T1w"],
      [str "sub-02", str "anat", str "sub-02_T1w"]] : List Path) ≠
      [[str "sub-01", str "anat", str "sub-01_T1w"]] := by
  refine ⟨by decide, by decide⟩

/-! ### C2: batch collision checking -/

theorem alookup_append_of_none {κ β : Type} [DecidableEq κ]
    {m1 : List (κ × β)} {k : κ} (m2 : List (κ × β)) (h : alookup m1 k = none) :
    alookup (m1 ++ m2) k = alookup m2 k := by
  induction m1 with
  | nil => rfl
  | cons p ps ih =>
    simp only [alookup] at h ⊢
    by_cases hp : p.1 = k
    · rw [if_pos hp] at h
      exact absurd h (by simp)
    · rw [if_neg hp] at h ⊢
      exact ih h

theorem alookup_none_of_any_false {κ β : Type} [DecidableEq κ]
    {m : List (κ × β)} {k : κ} (h : m.any (fun p => p.1 = k) = false) :
    alookup m k = none := by
  induction m with
  | nil => rfl
  | cons p ps ih =>
    simp only [List.any_cons, Bool.or_eq_false_iff] at h
    simp only [alookup]
    rw [if_neg (by simpa using h.1)]
    exact ih h.2

theorem alookup_isSome_of_any_true {κ β : Type} [DecidableEq κ]
    {m : List (κ × β)} {k : κ} (h : m.any (fun p => p.1 = k) = true) :
    (alookup m k).isSome = true := by
  induction m with
  | nil => simp at h
  | cons p ps ih =>
    simp only [List.any_cons, Bool.or_eq_true] at h
    simp only [alookup]
    by_cases hp : p.1 = k
    · rw [if_pos hp]
      rfl
    · rw [if_neg hp]
      rcases h with h | h
      · exact absurd (of_decide_eq_true h) hp
      · exact ih h

theorem alookup_map_update {κ β : Type} [DecidableEq κ]
    (m : List (κ × β)) (k k2 : κ) (v : β) :
    alookup (m.map (fun p => if p.1 = k then (k, v) else p)) k2 =
      if k2 = k then (alookup m k).map (fun _ => v) else alookup m k2 := by
  induction m with
  | nil =>
    simp only [List.map_nil, alookup]
    split <;> rfl
  | cons p ps ih =>
    by_cases hp : p.1 = k
    · simp only [List.map_cons, if_pos hp, alookup, if_pos hp]
      by_cases hk : k2 = k
      · rw [if_pos hk]
        rw [if_pos (by rw [hk])]
        rfl
      · rw [if_neg hk, if_neg (fun hh : k = k2 => hk hh.symm), ih, if_neg hk,
          if_neg (fun hh : p.1 = k2 => hk (hh ▸ hp ▸ rfl))]
    · simp only [List.map_cons, if_neg hp, alookup, if_neg hp]
      by_cases hk : k2 = k
      · rw [if_pos hk, ih, if_pos hk, if_neg (fun hh : p.1 = k2 => hp (hh.trans hk))]
      · rw [if_neg hk, ih, if_neg hk]

theorem alookup_append_single_self {κ β : Type} [DecidableEq κ]
    (m : List (κ × β)) (k : κ) (v : β) (h : alookup m k = none) :
    alookup (m ++ [(k, v)]) k = some v := by
  induction m with
  | nil => simp [alookup]
  | cons p ps ih =>
    simp only [alookup] at h
    by_cases hp : p.1 = k
    · rw [if_pos hp] at h
      exact absurd h (by simp)
    · rw [if_neg hp] at h
      simp only [List.cons_append, alookup]
      rw [if_neg hp]
      exact ih h

theorem alookup_append_single_ne {κ β : Type} [DecidableEq κ]
    (m : List (κ × β)) (k : κ) (v : β) (k2 : κ) (hk : ¬ (k = k2)) :
    alookup (m ++ [(k, v)]) k2 = alookup m k2 := by
  induction m with
  | nil => simp [alookup, hk]
  | cons p ps ih =>
    simp only [List.cons_append, alookup]
    by_cases hp : p.1 = k2
    · rw [if_pos hp, if_pos hp]
    · rw [if_neg hp, if_neg hp]
      exact ih

theorem alookup_dictInsert {κ β : Type} [DecidableEq κ]
    (m : List (κ × β)) (k k2 : κ) (v : β) :
    alookup (dictInsert m k v) k2 = if k2 = k then some v else alookup m k2 := by
  unfold dictInsert
  by_cases hany : m.any (fun p => p.1 = k) = true
  · rw [if_pos hany, alookup_map_update]
    by_cases hk : k2 = k
    · rw [if_pos hk, if_pos hk]
      obtain ⟨v0, hv0⟩ := Option.isSome_iff_exists.mp (alookup_isSome_of_any_true hany)
      rw [hv0]
      rfl
    · rw [if_neg hk, if_neg hk]
  · rw [if_neg hany]
    have hnone := alookup_none_of_any_false (Bool.eq_false_iff.mpr hany)
    by_cases hk : k2 = k
    · subst hk
      rw [if_pos rfl]
      exact alookup_append_single_self m k2 v hnone
    · rw [if_neg hk]
      exact alookup_append_single_ne m k v k2 (fun hh => hk hh.symm)

theorem checkDupAux_ok_sound :
    ∀ {ms : List (Path × Path)} {targets t' : List (Path × Path)},
      checkDupAux targets ms = .ok t' →
      (∀ m ∈ nonIdentityMoves ms, ∀ o2, alookup targets m.2 = some o2 → o2 = m.1) ∧
      (nonIdentityMoves ms).Pairwise MoveCompat := by
  intro ms
  induction ms with
  | nil =>
    intro targets t' _
    constructor
    · intro m hm
      simp [nonIdentityMoves] at hm
    · simp [nonIdentityMoves]
  | cons mv ms ih =>
    intro targets t' h
    obtain ⟨o, n⟩ := mv
    simp only [checkDupAux] at h
    by_cases hon : o = n
    · rw [if_pos hon] at h
      have hfil : nonIdentityMoves ((o, n) :: ms) = nonIdentityMoves ms := by
        simp [nonIdentityMoves, List.filter_cons, hon]
      rw [hfil]
      exact ih h
    · rw [if_neg hon] at h
      have hfil : nonIdentityMoves ((o, n) :: ms) = (o, n) :: nonIdentityMoves ms := by
        simp [nonIdentityMoves, List.filter_cons, hon]
      rw [hfil]
      have main : ∀ t2 : List (Path × Path),
          checkDupAux (dictInsert targets n o) ms = .ok t2 →
          (∀ o3, alookup targets n = some o3 → o3 = o) →
          (∀ m ∈ (o, n) :: nonIdentityMoves ms,
            ∀ o3, alookup targets m.2 = some o3 → o3 = m.1) ∧
          ((o, n) :: nonIdentityMoves ms).Pairwise MoveCompat := by
        intro t2 hrec hself
        obtain ⟨ih1, ih2⟩ := ih hrec
        constructor
        · intro m hm o3 hlk
          rcases List.mem_cons.mp hm with hm | hm
          · subst hm
            exact hself o3 hlk
          · by_cases hmn : m.2 = n
            · have h2 : alookup (dictInsert targets n o) m.2 = some o := by
                rw [alookup_dictInsert, if_pos hmn]
              have ho : o = m.1 := ih1 m hm o h2
              have hlk2 : alookup targets n = some o3 := by
                rw [← hmn]
                exact hlk
              rw [hself o3 hlk2]
              exact ho
            · refine ih1 m hm o3 ?_
              rw [alookup_dictInsert, if_neg hmn]
              exact hlk
        · refine List.Pairwise.cons ?_ ih2
          intro m hm hmn
          have hmn2 : m.2 = n := (show n = m.2 from hmn).symm
          have h2 : alookup (dictInsert targets n o) m.2 = some o := by
            rw [alookup_dictInsert, if_pos hmn2]
          exact ih1 m hm o h2
      rcases hl : alookup targets n with _ | o2
      · simp only [hl] at h
        exact main t' h (fun o3 hx => by rw [hl] at hx; exact absurd hx (by simp))
      · simp only [hl] at h
        by_cases ho2 : o2 = o
        · rw [if_neg (by simp [ho2])] at h
          refine main t' h (fun o3 hx => ?_)
          rw [hl] at hx
          simp only [Option.some.injEq] at hx
          rw [← hx]
          exact ho2
        · rw [if_pos ho2] at h
          exact absurd h (by simp)

theorem checkDupAux_ok_complete :
    ∀ {ms : List (Path × Path)} {targets : List (Path × Path)},
      (nonIdentityMoves ms).Pairwise MoveCompat →
      (∀ m ∈ nonIdentityMoves ms, ∀ o2, alookup targets m.2 = some o2 → o2 = m.1) →
      ∃ t', checkDupAux targets ms = .ok t' := by
  intro ms
  induction ms with
  | nil => exact fun _ _ => ⟨_, rfl⟩
  | cons mv ms ih =>
    intro targets hpw h1
    obtain ⟨o, n⟩ := mv
    simp only [checkDupAux]
    by_cases hon : o = n
    · rw [if_pos hon]
      have hfil : nonIdentityMoves ((o, n) :: ms) = nonIdentityMoves ms := by
        simp [nonIdentityMoves, List.filter_cons, hon]
      rw [hfil] at hpw h1
      exact ih hpw h1
    · rw [if_neg hon]
      have hfil : nonIdentityMoves ((o, n) :: ms) = (o, n) :: nonIdentityMoves ms := by
        simp [nonIdentityMoves, List.filter_cons, hon]
      rw [hfil] at hpw h1
      rw [List.pairwise_cons] at hpw
      obtain ⟨hhead, htail⟩ := hpw
      have hrec : ∀ m ∈ nonIdentityMoves ms, ∀ o2,
          alookup (dictInsert targets n o) m.2 = some o2 → o2 = m.1 := by
        intro m hm o2 hlk
        by_cases hmn : m.2 = n
        · rw [alookup_dictInsert, if_pos hmn] at hlk
          simp only [Option.some.injEq] at hlk
          have h4 : o = m.1 := hhead m hm hmn.symm
          rw [← hlk]
          exact h4
        · rw [alookup_dictInsert, if_neg hmn] at hlk
          exact h1 m (List.mem_cons_of_mem _ hm) o2 hlk
      rcases hl : alookup targets n with _ | o2
      · simp only [hl]
        exact ih htail hrec
      · simp only [hl]
        have ho2 : o2 = o := h1 (o, n) (List.mem_cons_self _ _) o2 hl
        rw [if_neg (by simp [ho2])]
        exact ih htail hrec

theorem checkExisting_ok_iff (root : Path) (fs : FS) :
    ∀ {ms : List (Path × Path)},
      checkExisting root fs ms = .ok () ↔
      ∀ m ∈ ms, ¬ (m.1 = m.2) → existsAt fs (root ++ m.2) = false := by
  intro ms
  induction ms with
  | nil => simp [checkExisting]
  | cons mv ms ih =>
    obtain ⟨o, n⟩ := mv
    simp only [checkExisting]
    by_cases hon : o = n
    · rw [if_pos hon, ih]
      constructor
      · intro h m hm
        rcases List.mem_cons.mp hm with hm | hm
        · intro hne
          exact absurd (by rw [hm, hon]) hne
        · exact h m hm
      · intro h m hm
        exact h m (List.mem_cons_of_mem _ hm)
    · rw [if_neg hon]
      by_cases hex : existsAt fs (root ++ n) = true
      · rw [if_pos ⟨hex, fun hh => hon (List.append_cancel_left hh).symm⟩]
        constructor
        · intro h
          exact absurd h (by simp)
        · intro h
          have hcontra := h (o, n) (List.mem_cons_self _ _) hon
          rw [hex] at hcontra
          exact Bool.noConfusion hcontra
      · rw [if_neg (fun hh => hex hh.1), ih]
        constructor
        · intro h m hm
          rcases List.mem_cons.mp hm with hm | hm
          · intro _
            rw [hm]
            simpa using hex
          · exact h m hm
        · intro h m hm
          exact h m (List.mem_cons_of_mem _ hm)

/-- C2 (amended): the batch pre-validation rejects exactly the batches with
two distinct sources sharing a destination, or with a non-identity move whose
destination already exists on disk — whether or not that destination is
another move's source.  A rejection happens in `renameTail` before any move
executes; a batch with compatible destinations none of which exist passes the
pre-validation. -/
theorem c2_collision (dryRun backupEnabled : Bool) (root : Path) (fs : FS)
    (moves : List (Path × Path)) :
    ((¬ (nonIdentityMoves moves).Pairwise MoveCompat ∨
        ∃ m ∈ moves, ¬ (m.1 = m.2) ∧ existsAt fs (root ++ m.2) = true) →
      exceptHasError (renameTail dryRun backupEnabled root fs moves) = true) ∧
    (((nonIdentityMoves moves).Pairwise MoveCompat ∧
        ∀ m ∈ moves, ¬ (m.1 = m.2) → existsAt fs (root ++ m.2) = false) →
      ensureNoCollisions root fs moves = .ok ()) := by
  constructor
  · intro hviol
    unfold renameTail ensureNoCollisions
    rcases hd : checkDupAux [] moves with e | t'
    · rfl
    · obtain ⟨hsound1, hsound2⟩ := checkDupAux_ok_sound hd
      rcases hviol with hviol | hviol
      · exact absurd hsound2 hviol
      · obtain ⟨m, hm, hni, hext⟩ := hviol
        rcases hc : checkExisting root fs moves with e | u
        · rfl
        · cases u
          have hfalse := (checkExisting_ok_iff root fs).mp hc m hm hni
          rw [hext] at hfalse
          exact Bool.noConfusion hfalse
  · intro ⟨hpw, hex⟩
    obtain ⟨t', ht⟩ := checkDupAux_ok_complete hpw
      (by intro m hm o2 hl; exact absurd hl (by rw [show alookup ([] : List (Path × Path)) m.2 = none from rfl]; simp))
    unfold ensureNoCollisions
    rw [ht]
    exact (checkExisting_ok_iff root fs).mpr hex

/-- C2 witness: a duplicated-destination batch is rejected, and a clean batch
passes the pre-validation. -/
theorem c2_collision_witness :
    exceptHasError (renameTail false true [str "r"] fsNone
      [([str "a"], [str "c"]), ([str "b"], [str "c"])]) = true ∧
    ensureNoCollisions [str "r"] fsNone [([str "a"], [str "c"])] = .ok () :=
  ⟨(c2_collision false true [str "r"] fsNone
      [([str "a"], [str "c"]), ([str "b"], [str "c"])]).1 (by decide),
   (c2_collision false true [str "r"] fsNone [([str "a"], [str "c"])]).2 (by decide)⟩

/-- C2 counterexample: a chain batch (`a -> b`, `b -> c`) has pairwise
distinct destinations and its only pre-existing destination (`b`) is another
move's source, so the claim says it passes — yet the code rejects it, because
the existence check does not exempt destinations that are other moves'
sources. -/
theorem c2_counterexample :
    ensureNoCollisions [str "r"] fsTwoFiles chainMoves = .error "Target already exists" ∧
    (chainMoves.map Prod.snd).Nodup ∧
    (∀ m ∈ chainMoves, existsAt fsTwoFiles ([str "r"] ++ m.2) = true →
      m.2 ∈ chainMoves.map Prod.fst) := by
  refine ⟨by decide, by decide, by decide⟩

/-! ### C4: run-absent resolution -/

/-- C4: for an auxiliary file with no run attribute, resolution returns the
unique task-key candidate; with several candidates it fails with the
ambiguous-run error listing every candidate run label (placeholder for
run-less candidates); with none it fails naming subject, session and task. -/
theorem c4_run_absent (info : FileInfo) (fullMap : FullMap) (taskMap : TaskMap)
    (subject task : Str) (session : Option Str)
    (hsub : (alookup info.entities (str "sub")).getD [] = subject)
    (hses : normalizeNumeric (alookup info.entities (str "ses")) = session)
    (htask : (alookup info.entities (str "task")).getD [] = task)
    (hrun : normalizeNumeric (alookup info.entities (str "run")) = none) :
    ((alookup taskMap (subject, session, task)).getD [] = [] →
      matchToBold info fullMap taskMap = .error (noBoldMsg subject session task)) ∧
    (∀ m, (alookup taskMap (subject, session, task)).getD [] = [m] →
      matchToBold info fullMap taskMap = .ok m.2) ∧
    (∀ m1 m2 rest, (alookup taskMap (subject, session, task)).getD [] = m1 :: m2 :: rest →
      matchToBold info fullMap taskMap = .error (availableRunsMsg (m1 :: m2 :: rest))) := by
  refine ⟨?_, ?_, ?_⟩
  · intro ht
    simp only [matchToBold, hsub, hses, htask, hrun, ht]
  · intro m ht
    simp only [matchToBold, hsub, hses, htask, hrun, ht]
    rfl
  · intro m1 m2 rest ht
    simp only [matchToBold, hsub, hses, htask, hrun, ht]
    rw [if_neg (by simp)]

/-- C4 witness: two candidates with runs 1 and 2 and no run attribute yield
the ambiguous-run error listing both labels. -/
theorem c4_run_absent_witness :
    matchToBold ⟨str "events", [(str "sub", str "03"), (str "task", str "faces")], str "sub-03_task-faces"⟩
      []
      [((str "03", none, str "faces"),
        [(some (str "1"), ⟨str "sub-03_task-faces_run-1", [str "sub-03", str "func"]⟩),
         (some (str "2"), ⟨str "sub-03_task-faces_run-2", [str "sub-03", str "func"]⟩)])] =
      .error (availableRunsMsg
        [(some (str "1"), ⟨str "sub-03_task-faces_run-1", [str "sub-03", str "func"]⟩),
         (some (str "2"), ⟨str "sub-03_task-faces_run-2", [str "sub-03", str "func"]⟩)]) :=
  (c4_run_absent
    ⟨str "events", [(str "sub", str "03"), (str "task", str "faces")], str "sub-03_task-faces"⟩
    []
    [((str "03", none, str "faces"),
      [(some (str "1"), ⟨str "sub-03_task-faces_run-1", [str "sub-03", str "func"]⟩),
       (some (str "2"), ⟨str "sub-03_task-faces_run-2", [str "sub-03", str "func"]⟩)])]
    (str "03") (str "faces") none rfl rfl rfl rfl).2.2
    (some (str "1"), ⟨str "sub-03_task-faces_run-1", [str "sub-03", str "func"]⟩)
    (some (str "2"), ⟨str "sub-03_task-faces_run-2", [str "sub-03", str "func"]⟩)
    [] (by decide)

/-! ### C3: run-present resolution tiering -/

/-- C3: for an auxiliary file whose normalized run is present, an exact-index
hit is returned first (precedence over task-key candidates); on a miss, the
first task-key candidate with an equal run is returned; with none, a unique
run-less candidate is returned; with zero or several run-less candidates
resolution fails with the no-run-match error. -/
theorem c3_run_present (info : FileInfo) (fullMap : FullMap) (taskMap : TaskMap)
    (subject task r : Str) (session : Option Str)
    (hsub : (alookup info.entities (str "sub")).getD [] = subject)
    (hses : normalizeNumeric (alookup info.entities (str "ses")) = session)
    (htask : (alookup info.entities (str "task")).getD [] = task)
    (hrun : normalizeNumeric (alookup info.entities (str "run")) = some r) :
    (∀ mb, alookup fullMap (subject, session, task, some r) = some mb →
      matchToBold info fullMap taskMap = .ok mb) ∧
    (alookup fullMap (subject, session, task, some r) = none →
      ∀ m rest, (alookup taskMap (subject, session, task)).getD [] = m :: rest →
        ((∀ c cs, (m :: rest).filter (fun c => c.1 = some r) = c :: cs →
            matchToBold info fullMap taskMap = .ok c.2) ∧
         ((m :: rest).filter (fun c => c.1 = some r) = [] →
           ((∀ f, (m :: rest).filter (fun c => c.1 = (none : Option Str)) = [f] →
              matchToBold info fullMap taskMap = .ok f.2) ∧
            (∀ f1 f2 fr, (m :: rest).filter (fun c => c.1 = (none : Option Str)) = f1 :: f2 :: fr →
              matchToBold info fullMap taskMap =
                .error (noRunMatchMsg subject session task r)) ∧
            ((m :: rest).filter (fun c => c.1 = (none : Option Str)) = [] →
              matchToBold info fullMap taskMap =
                .error (noRunMatchMsg subject session task r)))))) := by
  constructor
  · intro mb hfull
    simp only [matchToBold, hsub, hses, htask, hrun, hfull]
  · intro hfull m rest ht
    refine ⟨?_, ?_⟩
    · intro c cs hc
      simp only [matchToBold, hsub, hses, htask, hrun, hfull, ht, hc]
    · intro hc
      refine ⟨?_, ?_, ?_⟩
      · intro f hf
        simp only [matchToBold, hsub, hses, htask, hrun, hfull, ht, hc, hf]
      · intro f1 f2 fr hf
        simp only [matchToBold, hsub, hses, htask, hrun, hfull, ht, hc, hf]
      · intro hf
        simp only [matchToBold, hsub, hses, htask, hrun, hfull, ht, hc, hf]

/-- C3 witness: with reference entries run-1 and run-2 in both indexes, an
auxiliary file naming run 1 resolves to the run-1 entry through the exact
index. -/
theorem c3_run_present_witness :
    matchToBold
      ⟨str "events",
        [(str "sub", str "01"), (str "ses", str "01"), (str "task", str "rest"),
         (str "run", str "1")], str "sub-01_ses-01_task-rest_run-1"⟩
      [((str "01", some (str "1"), str "rest", some (str "1")),
         ⟨str "sub-01_ses-01_task-rest_run-1", [str "sub-01", str "ses-01", str "func"]⟩),
       ((str "01", some (str "1"), str "rest", some (str "2")),
         ⟨str "sub-01_ses-01_task-rest_run-2", [str "sub-01", str "ses-01", str "func"]⟩)]
      [((str "01", some (str "1"), str "rest"),
        [(some (str "1"),
           ⟨str "sub-01_ses-01_task-rest_run-1", [str "sub-01", str "ses-01", str "func"]⟩),
         (some (str "2"),
           ⟨str "sub-01_ses-01_task-rest_run-2", [str "sub-01", str "ses-01", str "func"]⟩)])] =
      .ok ⟨str "sub-01_ses-01_task-rest_run-1", [str "sub-01", str "ses-01", str "func"]⟩ :=
  (c3_run_present
    ⟨str "events",
      [(str "sub", str "01"), (str "ses", str "01"), (str "task", str "rest"),
       (str "run", str "1")], str "sub-01_ses-01_task-rest_run-1"⟩
    [((str "01", some (str "1"), str "rest", some (str "1")),
       ⟨str "sub-01_ses-01_task-rest_run-1", [str "sub-01", str "ses-01", str "func"]⟩),
     ((str "01", some (str "1"), str "rest", some (str "2")),
       ⟨str "sub-01_ses-01_task-rest_run-2", [str "sub-01", str "ses-01", str "func"]⟩)]
    [((str "01", some (str "1"), str "rest"),
      [(some (str "1"),
         ⟨str "sub-01_ses-01_task-rest_run-1", [str "sub-01", str "ses-01", str "func"]⟩),
       (some (str "2"),
         ⟨str "sub-01_ses-01_task-rest_run-2", [str "sub-01", str "ses-01", str "func"]⟩)])]
    (str "01") (str "rest") (str "1") (some (str "1"))
    rfl rfl rfl rfl).1
    ⟨str "sub-01_ses-01_task-rest_run-1", [str "sub-01", str "ses-01", str "func"]⟩
    (by decide)

theorem alookup_dictInsert_isSome {κ β : Type} [DecidableEq κ]
    (m : List (κ × β)) (k : κ) (v : β) (k2 : κ)
    (h : (alookup m k2).isSome = true) :
    (alookup (dictInsert m k v) k2).isSome = true := by
  rw [alookup_dictInsert]
  split
  · rfl
  · exact h

theorem alookup_bucket_update (m : TaskMap) (k k2 : TaskKey)
    (b : Option Str × MatchedBase) :
    alookup (m.map (fun p => if p.1 = k then (p.1, p.2 ++ [b]) else p)) k2 =
      if k2 = k then (alookup m k).map (fun l => l ++ [b]) else alookup m k2 := by
  induction m with
  | nil =>
    simp only [List.map_nil, alookup]
    split <;> rfl
  | cons p ps ih =>
    by_cases hp : p.1 = k
    · simp only [List.map_cons, if_pos hp, alookup, if_pos hp]
      by_cases hk : k2 = k
      · rw [if_pos (hp.trans hk.symm), if_pos hk]
        rfl
      · rw [if_neg (fun hh : p.1 = k2 => hk (hh.symm.trans hp)), ih, if_neg hk, if_neg hk,
          if_neg (fun hh : p.1 = k2 => hk (hh.symm.trans hp))]
    · simp only [List.map_cons, if_neg hp, alookup, if_neg hp]
      by_cases hpk2 : p.1 = k2
      · rw [if_pos hpk2, if_neg (fun hk2 : k2 = k => hp (hpk2.trans hk2)), if_pos hpk2]
      · rw [if_neg hpk2, ih]
        by_cases hk : k2 = k
        · rw [if_pos hk, if_pos hk]
        · rw [if_neg hk, if_neg hk, if_neg hpk2]

theorem alookup_bappend (m : TaskMap) (k : TaskKey) (b : Option Str × MatchedBase)
    (k2 : TaskKey) :
    alookup (bappend m k b) k2 =
      if k2 = k then some ((alookup m k).getD [] ++ [b]) else alookup m k2 := by
  unfold bappend
  by_cases hany : m.any (fun p => p.1 = k) = true
  · rw [if_pos hany, alookup_bucket_update]
    by_cases hk : k2 = k
    · rw [if_pos hk, if_pos hk]
      obtain ⟨v0, hv0⟩ := Option.isSome_iff_exists.mp (alookup_isSome_of_any_true hany)
      rw [hv0]
      rfl
    · rw [if_neg hk, if_neg hk]
  · rw [if_neg hany]
    have hnone := alookup_none_of_any_false (Bool.eq_false_iff.mpr hany)
    by_cases hk : k2 = k
    · subst hk
      rw [if_pos rfl, hnone]
      simpa using alookup_append_single_self m k2 [b] hnone
    · rw [if_neg hk]
      exact alookup_append_single_ne m k [b] k2 (fun hh => hk hh.symm)

theorem IndexInv_insert (maps : FullMap × TaskMap) (s : Str) (ses : Option Str)
    (t : Str) (rv : Option Str) (M : MatchedBase) (hP : IndexInv maps) :
    IndexInv (dictInsert maps.1 (s, ses, t, rv) M,
      bappend maps.2 (s, ses, t) (rv, M)) := by
  intro tk cands r mb hlk hmem
  have hlk2 : alookup (bappend maps.2 (s, ses, t) (rv, M)) tk = some cands := hlk
  rw [alookup_bappend] at hlk2
  by_cases htk : tk = (s, ses, t)
  · subst htk
    rw [if_pos rfl] at hlk2
    simp only [Option.some.injEq] at hlk2
    subst hlk2
    rcases List.mem_append.mp hmem with hold | hnew
    · rcases halk : alookup maps.2 (s, ses, t) with _ | oldCands
      · rw [halk] at hold
        simp at hold
      · rw [halk] at hold
        have := hP (s, ses, t) oldCands r mb halk (by simpa using hold)
        exact alookup_dictInsert_isSome _ _ _ _ this
    · have heq : ((some r : Option Str), mb) = (rv, M) := List.mem_singleton.mp hnew
      have hrv : rv = some r := (congrArg Prod.fst heq).symm
      show (alookup (dictInsert maps.1 (s, ses, t, rv) M) (s, ses, t, some r)).isSome = true
      rw [← hrv, alookup_dictInsert, if_pos rfl]
      rfl
  · rw [if_neg htk] at hlk2
    exact alookup_dictInsert_isSome _ _ _ _ (hP tk cands r mb hlk2 hmem)

theorem indexBoldStep_inv (maps : FullMap × TaskMap) (f : BoldFile)
    (hP : IndexInv maps) : IndexInv (indexBoldStep maps f) := by
  simp only [indexBoldStep]
  split
  · exact hP
  · split
    · exact hP
    · split
      · exact hP
      · split
        · exact hP
        · exact IndexInv_insert maps _ _ _ _ _ hP

theorem indexBoldFiles_inv (files : List BoldFile) : IndexInv (indexBoldFiles files) := by
  unfold indexBoldFiles
  have hstart : IndexInv (([], []) : FullMap × TaskMap) := by
    intro tk cands r mb hlk
    exact absurd hlk (by rw [show alookup ([] : TaskMap) tk = none from rfl]; simp)
  have hstep : ∀ (fs : List BoldFile) (maps : FullMap × TaskMap), IndexInv maps →
      IndexInv (fs.foldl indexBoldStep maps) := by
    intro fs
    induction fs with
    | nil => exact fun maps hP => hP
    | cons f fs ih =>
      intro maps hP
      rw [List.foldl_cons]
      exact ih _ (indexBoldStep_inv maps f hP)
  exact hstep files ([], []) hstart

/-- C10: in the index pair produced by one scan, every task-index candidate
carrying a run label has its full key present in the exact index; hence when
the resolver is called with a run that misses the exact index, no task-index
candidate has an equal run, and the equal-run branch of the fallback is
empty. -/
theorem c10_index_linking (files : List BoldFile) :
    (∀ tk cands r mb,
      alookup (indexBoldFiles files).2 tk = some cands →
      (some r, mb) ∈ cands →
      (alookup (indexBoldFiles files).1 (tk.1, tk.2.1, tk.2.2, some r)).isSome = true) ∧
    (∀ s ses t r,
      alookup (indexBoldFiles files).1 (s, ses, t, some r) = none →
      ((alookup (indexBoldFiles files).2 (s, ses, t)).getD []).filter
        (fun c => c.1 = some r) = []) := by
  have hinv := indexBoldFiles_inv files
  constructor
  · exact hinv
  · intro s ses t r hnone
    rcases hf : ((alookup (indexBoldFiles files).2 (s, ses, t)).getD []).filter
        (fun c => c.1 = some r) with _ | ⟨c, cs⟩
    · exact hf
    · exfalso
      have hcmem : c ∈ ((alookup (indexBoldFiles files).2 (s, ses, t)).getD []).filter
          (fun c => c.1 = some r) := by
        rw [hf]
        exact List.mem_cons_self c cs
      obtain ⟨hcin, hcpred⟩ := List.mem_filter.mp hcmem
      have hc1 : c.1 = some r := of_decide_eq_true hcpred
      rcases halk : alookup (indexBoldFiles files).2 (s, ses, t) with _ | cands
      · rw [halk] at hcin
        simp at hcin
      · rw [halk] at hcin
        have hcands : c ∈ cands := by simpa using hcin
        have hmemc : ((some r : Option Str), c.2) ∈ cands := by
          rw [← hc1]
          exact hcands
        have := hinv (s, ses, t) cands r c.2 halk hmemc
        rw [hnone] at this
        exact Bool.noConfusion this

/-! ### C9: parse failure conditions at the two call sites -/

theorem splitDash1_none_iff (s : Str) : splitDash1 s = none ↔ '-' ∉ s := by
  unfold splitDash1
  by_cases hd : '-' ∈ s
  · rw [if_pos hd]
    simp [hd]
  · rw [if_neg hd]
    simp [hd]

theorem mem_dash_of_splitDash1_some {s k v : Str} (h : splitDash1 s = some (k, v)) :
    '-' ∈ s := by
  by_cases hd : '-' ∈ s
  · exact hd
  · rw [(splitDash1_none_iff s).mpr hd] at h
    exact absurd h (by simp)

theorem parseEntitiesAux_error_iff :
    ∀ {segs : List Str} (acc : List (Str × Str)),
      exceptHasError (parseEntitiesAux acc segs) = true ↔
        ∃ s ∈ segs, '-' ∉ s ∨ segKey s = [] ∨ segVal s = [] := by
  intro segs
  induction segs with
  | nil =>
    intro acc
    simp [parseEntitiesAux, exceptHasError]
  | cons seg rest ih =>
    intro acc
    simp only [parseEntitiesAux]
    rcases hsp : splitDash1 seg with _ | ⟨k, v⟩
    · simp only [hsp]
      constructor
      · intro _
        exact ⟨seg, List.mem_cons_self _ _, Or.inl ((splitDash1_none_iff seg).mp hsp)⟩
      · intro _
        rfl
    · simp only [hsp]
      obtain ⟨hk, hv, hseg⟩ := splitDash1_some hsp
      by_cases hkv : k = [] ∨ v = []
      · rw [if_pos hkv]
        constructor
        · intro _
          refine ⟨seg, List.mem_cons_self _ _, ?_⟩
          rcases hkv with h | h
          · exact Or.inr (Or.inl (hk ▸ h))
          · exact Or.inr (Or.inr (hv ▸ h))
        · intro _
          rfl
      · rw [if_neg hkv, ih]
        constructor
        · rintro ⟨s, hs, hbad⟩
          exact ⟨s, List.mem_cons_of_mem _ hs, hbad⟩
        · rintro ⟨s, hs, hbad⟩
          rcases List.mem_cons.mp hs with hseq | hs2
          · exfalso
            subst hseq
            rcases hbad with h | h | h
            · exact h (mem_dash_of_splitDash1_some hsp)
            · exact hkv (Or.inl (hk.trans h))
            · exact hkv (Or.inr (hv.trans h))
          · exact ⟨s, hs2, hbad⟩

theorem any_key_iff_isSome {κ β : Type} [DecidableEq κ] (m : List (κ × β)) (k : κ) :
    m.any (fun p => p.1 = k) = true ↔ (alookup m k).isSome = true := by
  induction m with
  | nil => simp [alookup]
  | cons p ps ih =>
    simp only [List.any_cons, Bool.or_eq_true, alookup]
    by_cases hp : p.1 = k
    · rw [if_pos hp]
      simp [hp]
    · rw [if_neg hp]
      simp [hp, ih]

theorem parseEntitiesAux_key_iff :
    ∀ {segs : List Str} {acc ents : List (Str × Str)},
      parseEntitiesAux acc segs = .ok ents → ∀ k,
      ((alookup ents k).isSome = true ↔
        (alookup acc k).isSome = true ∨ ∃ s ∈ segs, segKey s = k) := by
  intro segs
  induction segs with
  | nil =>
    intro acc ents h k
    simp only [parseEntitiesAux] at h
    cases h
    simp
  | cons seg rest ih =>
    intro acc ents h k
    simp only [parseEntitiesAux] at h
    split at h
    · exact absurd h (by simp)
    · rename_i k0 v0 hsp
      split at h
      · exact absurd h (by simp)
      · obtain ⟨hk0, -, -⟩ := splitDash1_some hsp
        have hstep := ih h k
        have hins : alookup (odInsert acc k0 v0) k =
            if k = k0 then some v0 else alookup acc k :=
          alookup_dictInsert acc k0 k v0
        rw [hstep, hins]
        by_cases hkk0 : k = k0
        · rw [if_pos hkk0]
          constructor
          · intro _
            exact Or.inr ⟨seg, List.mem_cons_self _ _, by rw [← hk0]; exact hkk0.symm⟩
          · intro _
            exact Or.inl rfl
        · rw [if_neg hkk0]
          constructor
          · rintro (hacc | ⟨s, hs, hkey⟩)
            · exact Or.inl hacc
            · exact Or.inr ⟨s, List.mem_cons_of_mem _ hs, hkey⟩
          · rintro (hacc | ⟨s, hs, hkey⟩)
            · exact Or.inl hacc
            · rcases List.mem_cons.mp hs with hseq | hs2
              · exfalso
                subst hseq
                exact hkk0 (hkey ▸ hk0.symm ▸ rfl)
              · exact Or.inr ⟨s, hs2, hkey⟩

theorem mem_odInsert {m : List (Str × Str)} {k v : Str} {x : Str × Str}
    (hx : x ∈ odInsert m k v) : x = (k, v) ∨ x ∈ m := by
  unfold odInsert at hx
  split at hx
  · rcases List.mem_map.mp hx with ⟨p, hp, hfx⟩
    by_cases hpk : p.1 = k
    · rw [if_pos hpk] at hfx
      exact Or.inl hfx.symm
    · rw [if_neg hpk] at hfx
      exact Or.inr (hfx ▸ hp)
  · rcases List.mem_append.mp hx with h | h
    · exact Or.inr h
    · exact Or.inl (List.mem_singleton.mp h)

theorem alookup_mem {κ β : Type} [DecidableEq κ] {m : List (κ × β)} {k : κ} {v : β}
    (h : alookup m k = some v) : (k, v) ∈ m := by
  induction m with
  | nil => simp [alookup] at h
  | cons p ps ih =>
    simp only [alookup] at h
    by_cases hp : p.1 = k
    · rw [if_pos hp] at h
      simp only [Option.some.injEq] at h
      have hpv : p = (k, v) := by
        rw [← hp, ← h]
      rw [← hpv]
      exact List.mem_cons_self p ps
    · rw [if_neg hp] at h
      exact List.mem_cons_of_mem _ (ih h)

theorem describeEntities_mem_ne :
    ∀ (segs : List Str) (acc : List (Str × Str)),
      (∀ e ∈ acc, ¬ ((e : Str × Str).2 = [])) →
      ∀ e ∈ segs.foldl (fun acc part =>
          match splitDash1 part with
          | none => acc
          | some (k, v) => if ¬ (k = []) ∧ ¬ (v = []) then odInsert acc k v else acc) acc,
        ¬ ((e : Str × Str).2 = []) := by
  intro segs
  induction segs with
  | nil => exact fun acc hacc => hacc
  | cons seg rest ih =>
    intro acc hacc
    rw [List.foldl_cons]
    rcases hsp : splitDash1 seg with _ | ⟨k, v⟩
    · simp only [hsp]
      exact ih acc hacc
    · simp only [hsp]
      by_cases hkv : ¬ (k = []) ∧ ¬ (v = [])
      · rw [if_pos hkv]
        refine ih (odInsert acc k v) ?_
        intro e he
        rcases mem_odInsert he with he2 | he2
        · rw [he2]
          exact hkv.2
        · exact hacc e he2
      · rw [if_neg hkv]
        exact ih acc hacc

theorem describeEntities_emptyVal (segs : List Str) (k : Str) :
    emptyVal (describeEntities segs) k = false := by
  unfold emptyVal
  rcases hl : alookup (describeEntities segs) k with _ | v
  · rfl
  · have hmem := alookup_mem hl
    have := describeEntities_mem_ne segs [] (by simp) (k, v) hmem
    simpa using this

/-- C9 (amended): the two call sites disagree.  `_parse_bids_name` fails
exactly when the name has no non-empty segments, some non-final segment lacks
the dash or has an empty key or value (for any key, required or not), or no
non-final segment carries the `sub` key.  `_describe_file` never fails on a
delimiter-less or empty-keyed/valued non-final segment — such segments are
skipped silently — and fails exactly when the name has no segments, the tag
is neither `events` nor `physio`, or the surviving entities lack `sub` or
`task` (which covers empty-valued `sub`/`task` segments, since those are
dropped); its dedicated empty-session/run checks can never fire. -/
theorem c9_parse_failure_conditions (n : Str) :
    (exceptHasError (parseBidsName n) = true ↔
      partsUnd n = [] ∨
      (∃ s ∈ (partsUnd n).dropLast, '-' ∉ s ∨ segKey s = [] ∨ segVal s = []) ∨
      ¬ (∃ s ∈ (partsUnd n).dropLast, segKey s = str "sub")) ∧
    (partsUnd (stripAllSuffixes n) = [] → exceptHasError (describeFile n) = true) ∧
    (∀ p ps, partsUnd (stripAllSuffixes n) = p :: ps →
      (exceptHasError (describeFile n) = true ↔
        ¬ ((p :: ps).getLast (List.cons_ne_nil p ps) = str "events" ∨
           (p :: ps).getLast (List.cons_ne_nil p ps) = str "physio") ∨
        hasKey (describeEntities (p :: ps).dropLast) (str "sub") = false ∨
        hasKey (describeEntities (p :: ps).dropLast) (str "task") = false)) := by
  refine ⟨?_, ?_, ?_⟩
  · -- the rename parser
    unfold parseBidsName
    rcases hp : partsUnd n with _ | ⟨p, ps⟩
    · simp only [hp]
      constructor
      · intro _
        exact Or.inl trivial
      · intro _
        rfl
    · simp only [hp]
      rcases he : parseEntitiesAux [] (p :: ps).dropLast with e | ents
      · simp only [he]
        constructor
        · intro _
          refine Or.inr (Or.inl ?_)
          have := (@parseEntitiesAux_error_iff ((p :: ps).dropLast) []).mp
            (by rw [he]; rfl)
          exact this
        · intro _
          rfl
      · simp only [he]
        by_cases hsub : ents.any (fun e => e.1 = str "sub") = true
        · rw [if_pos hsub]
          constructor
          · intro hfalse
            exact Bool.noConfusion hfalse
          · rintro (h | h | h)
            · exact absurd h (by simp)
            · have := (@parseEntitiesAux_error_iff ((p :: ps).dropLast) []).mpr h
              rw [he] at this
              exact Bool.noConfusion this
            · refine absurd ?_ h
              have hks := (parseEntitiesAux_key_iff he (str "sub")).mp
                ((any_key_iff_isSome ents (str "sub")).mp hsub)
              rcases hks with hacc | hex
              · rw [show alookup ([] : List (Str × Str)) (str "sub") = none from rfl] at hacc
                exact absurd hacc (by simp)
              · exact hex
        · rw [if_neg hsub]
          constructor
          · intro _
            refine Or.inr (Or.inr ?_)
            rintro ⟨s, hs, hkey⟩
            refine hsub ?_
            rw [any_key_iff_isSome]
            exact (parseEntitiesAux_key_iff he (str "sub")).mpr (Or.inr ⟨s, hs, hkey⟩)
          · intro _
            rfl
  · -- the describer on an empty segment list
    intro hp
    unfold describeFile
    simp only [hp]
    rfl
  · -- the describer on a non-empty segment list
    intro p ps hp
    unfold describeFile
    simp only [hp]
    by_cases hsfx : (p :: ps).getLast (List.cons_ne_nil p ps) = str "events" ∨
        (p :: ps).getLast (List.cons_ne_nil p ps) = str "physio"
    · rw [if_neg (not_not_intro hsfx)]
      by_cases hsub : hasKey (describeEntities (p :: ps).dropLast) (str "sub") = true
      · by_cases htsk : hasKey (describeEntities (p :: ps).dropLast) (str "task") = true
        · rw [if_neg (fun hc => hc ⟨hsub, htsk⟩),
            if_neg (by rw [describeEntities_emptyVal]; simp),
            if_neg (by rw [describeEntities_emptyVal]; simp)]
          constructor
          · intro hfalse
            exact Bool.noConfusion hfalse
          · rintro (h | h | h)
            · exact absurd hsfx h
            · exact Bool.noConfusion (hsub.symm.trans h)
            · exact Bool.noConfusion (htsk.symm.trans h)
        · rw [if_pos (fun hand => htsk hand.2)]
          constructor
          · intro _
            exact Or.inr (Or.inr (Bool.eq_false_iff.mpr htsk))
          · intro _
            rfl
      · rw [if_pos (fun hand => hsub hand.1)]
        constructor
        · intro _
          exact Or.inr (Or.inl (Bool.eq_false_iff.mpr hsub))
        · intro _
          rfl
    · rw [if_pos hsfx]
      constructor
      · intro _
        exact Or.inl hsfx
      · intro _
        rfl

/-- C9 counterexample: the describer accepts a name with a delimiter-less
non-final segment (it is silently skipped) while the parser rejects the same
segment — and the parser also rejects an empty value of a non-required key —
so the claimed failure conditions do not hold uniformly at both call sites. -/
theorem c9_counterexample :
    exceptHasError (describeFile (str "sub-01_blah_task-a_events.tsv")) = false ∧
    (str "blah") ∈ (partsUnd (stripAllSuffixes (str "sub-01_blah_task-a_events.tsv"))).dropLast ∧
    '-' ∉ (str "blah") ∧
    exceptHasError (parseBidsName (str "sub-01_blah_task-a_bold")) = true ∧
    exceptHasError (parseBidsName (str "sub-01_acq-_bold")) = true := by
  refine ⟨by decide, by decide, by decide, by decide, by decide⟩

/-! ### C6: dry-run fidelity -/

theorem fsMkdirParents_files (fs : FS) (d : Path) :
    (fsMkdirParents fs d).files = fs.files := rfl

theorem fsSetFile_files_ne (fs : FS) (p : Path) (b : Bool) {q : Path} (h : ¬ (q = p)) :
    (fsSetFile fs p b).files q = fs.files q := if_neg h

theorem fsSetFile_dirs (fs : FS) (p : Path) (b : Bool) :
    (fsSetFile fs p b).dirs = fs.dirs := rfl

theorem copyPhysioJson_dry (overwrite : Bool) (f : SourceFile) (matched : MatchedBase)
    (fs : FS) : copyPhysioJson true overwrite f matched fs = fs := by
  unfold copyPhysioJson
  by_cases h1 : f.jsonExists = false
  · rw [if_pos h1]
  · rw [if_neg h1]
    by_cases h2 : existsAt fs (jsonTarget matched) = true ∧ overwrite = false
    · rw [if_pos h2]
    · rw [if_neg h2, if_pos rfl]

theorem copyPhysioJson_dirs (dryRun overwrite : Bool) (f : SourceFile)
    (matched : MatchedBase) (fs : FS) :
    (copyPhysioJson dryRun overwrite f matched fs).dirs = fs.dirs := by
  unfold copyPhysioJson
  by_cases h1 : f.jsonExists = false
  · rw [if_pos h1]
  · rw [if_neg h1]
    by_cases h2 : existsAt fs (jsonTarget matched) = true ∧ overwrite = false
    · rw [if_pos h2]
    · rw [if_neg h2]
      by_cases h3 : dryRun = true
      · rw [if_pos h3]
      · rw [if_neg h3]
        rfl

theorem copyPhysioJson_files_sub (dryRun overwrite : Bool) (f : SourceFile)
    (matched : MatchedBase) (fs : FS) (p : Path) :
    (copyPhysioJson dryRun overwrite f matched fs).files p = fs.files p ∨
      p = jsonTarget matched := by
  unfold copyPhysioJson
  by_cases h1 : f.jsonExists = false
  · rw [if_pos h1]
    exact Or.inl rfl
  · rw [if_neg h1]
    by_cases h2 : existsAt fs (jsonTarget matched) = true ∧ overwrite = false
    · rw [if_pos h2]
      exact Or.inl rfl
    · rw [if_neg h2]
      by_cases h3 : dryRun = true
      · rw [if_pos h3]
        exact Or.inl rfl
      · rw [if_neg h3]
        by_cases hp : p = jsonTarget matched
        · exact Or.inr hp
        · exact Or.inl (fsSetFile_files_ne fs _ true hp)

theorem executeMoves_dry (backupEnabled : Bool) (root : Path) :
    ∀ (moves : List (Path × Path)) (fs : FS),
      executeMoves true backupEnabled root fs moves = (fs, []) := by
  intro moves
  induction moves with
  | nil => intro fs; rfl
  | cons mv ms ih =>
    intro fs
    obtain ⟨o, n⟩ := mv
    simp only [executeMoves]
    by_cases hon : o = n
    · rw [if_pos hon]
      exact ih fs
    · rw [if_neg hon, if_pos trivial]
      exact ih fs

theorem importStep_dry_live (overwrite : Bool) (fullMap : FullMap) (taskMap : TaskMap)
    (f : SourceFile) (accD accL : ImportAcc)
    (hcop : accD.copied = accL.copied)
    (hskip : accD.skipped = accL.skipped)
    (herr : accD.errors = accL.errors)
    (hdirs : accD.fs.dirs = accL.fs.dirs)
    (hfs : ∀ p ∈ plannedWrites fullMap taskMap f, accL.fs.files p = accD.fs.files p) :
    (importStep true overwrite fullMap taskMap accD f).copied =
      (importStep false overwrite fullMap taskMap accL f).copied ∧
    (importStep true overwrite fullMap taskMap accD f).skipped =
      (importStep false overwrite fullMap taskMap accL f).skipped ∧
    (importStep true overwrite fullMap taskMap accD f).errors =
      (importStep false overwrite fullMap taskMap accL f).errors ∧
    (importStep true overwrite fullMap taskMap accD f).fs.dirs =
      (importStep false overwrite fullMap taskMap accL f).fs.dirs ∧
    (importStep true overwrite fullMap taskMap accD f).fs.files = accD.fs.files ∧
    (∀ p, (importStep false overwrite fullMap taskMap accL f).fs.files p ≠ accL.fs.files p →
      p ∈ plannedWrites fullMap taskMap f) := by
  rcases hd : describeFile f.name with e | info
  · have hD : importStep true overwrite fullMap taskMap accD f =
        { accD with errors := accD.errors ++ [(f.name, e)] } := by
      simp only [importStep, hd]
    have hL : importStep false overwrite fullMap taskMap accL f =
        { accL with errors := accL.errors ++ [(f.name, e)] } := by
      simp only [importStep, hd]
    rw [hD, hL]
    exact ⟨hcop, hskip, by rw [herr], hdirs, rfl, fun p hne => absurd rfl hne⟩
  · by_cases hlines : info.kind = str "events" ∧ f.linesOk = false
    · have hD : importStep true overwrite fullMap taskMap accD f =
          { accD with skipped := accD.skipped ++ [(f.name, "events file too short")] } := by
        simp only [importStep, hd]
        rw [if_pos hlines]
      have hL : importStep false overwrite fullMap taskMap accL f =
          { accL with skipped := accL.skipped ++ [(f.name, "events file too short")] } := by
        simp only [importStep, hd]
        rw [if_pos hlines]
      rw [hD, hL]
      exact ⟨hcop, by rw [hskip], herr, hdirs, rfl, fun p hne => absurd rfl hne⟩
    · rcases hm : matchToBold info fullMap taskMap with e | matched
      · have hD : importStep true overwrite fullMap taskMap accD f =
            { accD with errors := accD.errors ++ [(f.name, e)] } := by
          simp only [importStep, hd]
          rw [if_neg hlines]
          simp only [hm]
        have hL : importStep false overwrite fullMap taskMap accL f =
            { accL with errors := accL.errors ++ [(f.name, e)] } := by
          simp only [importStep, hd]
          rw [if_neg hlines]
          simp only [hm]
        rw [hD, hL]
        exact ⟨hcop, hskip, by rw [herr], hdirs, rfl, fun p hne => absurd rfl hne⟩
      · have hP : plannedWrites fullMap taskMap f =
            [importTarget f info matched] ++
              (if info.kind = str "physio" then [jsonTarget matched] else []) := by
          simp only [plannedWrites, hd]
          rw [if_neg hlines]
          simp only [hm]
        have htgtmem : importTarget f info matched ∈ plannedWrites fullMap taskMap f := by
          rw [hP]
          exact List.mem_append.mpr (Or.inl (List.mem_singleton.mpr rfl))
        have hfst : accL.fs.files (importTarget f info matched) =
            accD.fs.files (importTarget f info matched) := hfs _ htgtmem
        have hexEq : existsAt (fsMkdirParents accL.fs matched.modalityDir)
              (importTarget f info matched) =
            existsAt (fsMkdirParents accD.fs matched.modalityDir)
              (importTarget f info matched) := by
          unfold existsAt fsMkdirParents
          rw [hfst, hdirs]
        have hdirsEq : (fsMkdirParents accD.fs matched.modalityDir).dirs =
            (fsMkdirParents accL.fs matched.modalityDir).dirs := by
          unfold fsMkdirParents
          rw [hdirs]
        by_cases hex : existsAt (fsMkdirParents accD.fs matched.modalityDir)
            (importTarget f info matched) = true ∧ overwrite = false
        · have hexL : existsAt (fsMkdirParents accL.fs matched.modalityDir)
              (importTarget f info matched) = true ∧ overwrite = false := by
            rw [hexEq]
            exact hex
          have hD : importStep true overwrite fullMap taskMap accD f =
              { accD with
                skipped := accD.skipped ++ [(f.name, "already exists")]
                fs := fsMkdirParents accD.fs matched.modalityDir } := by
            simp only [importStep, hd]
            rw [if_neg hlines]
            simp only [hm]
            rw [if_pos hex]
          have hL : importStep false overwrite fullMap taskMap accL f =
              { accL with
                skipped := accL.skipped ++ [(f.name, "already exists")]
                fs := fsMkdirParents accL.fs matched.modalityDir } := by
            simp only [importStep, hd]
            rw [if_neg hlines]
            simp only [hm]
            rw [if_pos hexL]
          rw [hD, hL]
          exact ⟨hcop, by rw [hskip], herr, hdirsEq, rfl, fun p hne => absurd rfl hne⟩
        · have hexL : ¬ (existsAt (fsMkdirParents accL.fs matched.modalityDir)
              (importTarget f info matched) = true ∧ overwrite = false) := by
            rw [hexEq]
            exact hex
          have hD : importStep true overwrite fullMap taskMap accD f =
              { accD with
                copied := accD.copied ++ [importTarget f info matched]
                fs := if info.kind = str "physio" then
                    copyPhysioJson true overwrite f matched
                      (fsMkdirParents accD.fs matched.modalityDir)
                  else fsMkdirParents accD.fs matched.modalityDir } := by
            simp only [importStep, hd]
            rw [if_neg hlines]
            simp only [hm]
            rw [if_neg hex, if_pos trivial]
          have hL : importStep false overwrite fullMap taskMap accL f =
              { accL with
                copied := accL.copied ++ [importTarget f info matched]
                fs := if info.kind = str "physio" then
                    copyPhysioJson false overwrite f matched
                      (fsSetFile (fsMkdirParents accL.fs matched.modalityDir)
                        (importTarget f info matched) true)
                  else fsSetFile (fsMkdirParents accL.fs matched.modalityDir)
                    (importTarget f info matched) true } := by
            simp only [importStep, hd]
            rw [if_neg hlines]
            simp only [hm]
            rw [if_neg hexL, if_neg Bool.false_ne_true]
          rw [hD, hL]
          refine ⟨by rw [hcop], hskip, herr, ?_, ?_, ?_⟩
          · -- directories evolve identically
            by_cases hph : info.kind = str "physio"
            · rw [if_pos hph, if_pos hph, copyPhysioJson_dirs, copyPhysioJson_dirs,
                fsSetFile_dirs]
              exact hdirsEq
            · rw [if_neg hph, if_neg hph, fsSetFile_dirs]
              exact hdirsEq
          · -- the dry pass writes no file
            by_cases hph : info.kind = str "physio"
            · rw [if_pos hph, copyPhysioJson_dry]
              rfl
            · rw [if_neg hph]
              rfl
          · -- live writes stay inside the planned writes
            intro p hne
            rw [hP]
            by_cases hpt : p = importTarget f info matched
            · exact List.mem_append.mpr (Or.inl (List.mem_singleton.mpr hpt))
            · by_cases hph : info.kind = str "physio"
              · by_cases hpj : p = jsonTarget matched
                · refine List.mem_append.mpr (Or.inr ?_)
                  rw [if_pos hph]
                  exact List.mem_singleton.mpr hpj
                · exfalso
                  rw [if_pos hph] at hne
                  rcases copyPhysioJson_files_sub false overwrite f matched _ p with h1 | h1
                  · rw [h1, fsSetFile_files_ne _ _ _ hpt] at hne
                    exact hne rfl
                  · exact hpj h1
              · exfalso
                rw [if_neg hph, fsSetFile_files_ne _ _ _ hpt] at hne
                exact hne rfl

theorem importFold_dry_live (overwrite : Bool) (fullMap : FullMap) (taskMap : TaskMap) :
    ∀ (files : List SourceFile) (accD accL : ImportAcc),
      accD.copied = accL.copied → accD.skipped = accL.skipped →
      accD.errors = accL.errors → accD.fs.dirs = accL.fs.dirs →
      (∀ f ∈ files, ∀ p ∈ plannedWrites fullMap taskMap f,
        accL.fs.files p = accD.fs.files p) →
      files.Pairwise (fun f g => ∀ p ∈ plannedWrites fullMap taskMap f,
        p ∉ plannedWrites fullMap taskMap g) →
      (files.foldl (importStep true overwrite fullMap taskMap) accD).copied =
        (files.foldl (importStep false overwrite fullMap taskMap) accL).copied ∧
      (files.foldl (importStep true overwrite fullMap taskMap) accD).skipped =
        (files.foldl (importStep false overwrite fullMap taskMap) accL).skipped ∧
      (files.foldl (importStep true overwrite fullMap taskMap) accD).errors =
        (files.foldl (importStep false overwrite fullMap taskMap) accL).errors ∧
      (files.foldl (importStep true overwrite fullMap taskMap) accD).fs.files =
        accD.fs.files := by
  intro files
  induction files with
  | nil =>
    intro accD accL hcop hskip herr _ _ _
    exact ⟨hcop, hskip, herr, rfl⟩
  | cons f rest ih =>
    intro accD accL hcop hskip herr hdirs hfs hpw
    obtain ⟨sc, ss, se, sdirs, sfiles, ssub⟩ :=
      importStep_dry_live overwrite fullMap taskMap f accD accL hcop hskip herr hdirs
        (hfs f (List.mem_cons_self _ _))
    rw [List.pairwise_cons] at hpw
    obtain ⟨hhead, htail⟩ := hpw
    rw [List.foldl_cons, List.foldl_cons]
    have hfs2 : ∀ g ∈ rest, ∀ p ∈ plannedWrites fullMap taskMap g,
        (importStep false overwrite fullMap taskMap accL f).fs.files p =
          (importStep true overwrite fullMap taskMap accD f).fs.files p := by
      intro g hg p hp
      rw [sfiles]
      by_cases hch : (importStep false overwrite fullMap taskMap accL f).fs.files p =
          accL.fs.files p
      · rw [hch]
        exact hfs g (List.mem_cons_of_mem _ hg) p hp
      · exact absurd hp (hhead g hg p (ssub p hch))
    obtain ⟨rc, rs, re, rfiles⟩ := ih
      (importStep true overwrite fullMap taskMap accD f)
      (importStep false overwrite fullMap taskMap accL f)
      sc ss se sdirs hfs2 htail
    exact ⟨rc, rs, re, rfiles.trans sfiles⟩

/-- C6 (amended): dry-run fidelity holds with two qualifications.  For the
rename flow, a dry-run `_execute_moves` performs no filesystem mutation and
processes nothing (planning itself never reads the dry-run flag).  For the
importer, a dry-run pass writes no file (it may still create target
directories, which happens before the dry-run check), and the copied/skip/
error classifications of a dry and a live pass on the same input coincide
provided no two source files plan a write to the same path; two files
colliding on one target path make live mode report an extra
already-exists skip that dry-run does not (see the counterexample). -/
theorem c6_dry_run_fidelity (overwrite backupEnabled : Bool) (root : Path)
    (fullMap : FullMap) (taskMap : TaskMap) (files : List SourceFile)
    (moves : List (Path × Path)) (fs0 fsR : FS)
    (hpw : files.Pairwise (fun f g => ∀ p ∈ plannedWrites fullMap taskMap f,
      p ∉ plannedWrites fullMap taskMap g)) :
    executeMoves true backupEnabled root fsR moves = (fsR, []) ∧
    (importFiles true overwrite fullMap taskMap files fs0).fs.files = fs0.files ∧
    (importFiles true overwrite fullMap taskMap files fs0).copied =
      (importFiles false overwrite fullMap taskMap files fs0).copied ∧
    (importFiles true overwrite fullMap taskMap files fs0).skipped =
      (importFiles false overwrite fullMap taskMap files fs0).skipped ∧
    (importFiles true overwrite fullMap taskMap files fs0).errors =
      (importFiles false overwrite fullMap taskMap files fs0).errors := by
  obtain ⟨hc, hs, he, hf⟩ := importFold_dry_live overwrite fullMap taskMap files
    ⟨[], [], [], fs0⟩ ⟨[], [], [], fs0⟩ rfl rfl rfl rfl (fun _ _ _ _ => rfl) hpw
  exact ⟨executeMoves_dry backupEnabled root moves fsR, hf, hc, hs, he⟩

/-- C6 witness: on a collision-free input the dry and live import passes
classify identically and the dry pass writes no file. -/
theorem c6_dry_run_fidelity_witness :
    executeMoves true true [str "r"] fsNone [([str "a"], [str "b"])] = (fsNone, []) ∧
    (importFiles true false fullMap1 taskMap1 [srcRun01] fsNone).fs.files = fsNone.files ∧
    (importFiles true false fullMap1 taskMap1 [srcRun01] fsNone).copied =
      (importFiles false false fullMap1 taskMap1 [srcRun01] fsNone).copied ∧
    (importFiles true false fullMap1 taskMap1 [srcRun01] fsNone).skipped =
      (importFiles false false fullMap1 taskMap1 [srcRun01] fsNone).skipped ∧
    (importFiles true false fullMap1 taskMap1 [srcRun01] fsNone).errors =
      (importFiles false false fullMap1 taskMap1 [srcRun01] fsNone).errors :=
  c6_dry_run_fidelity false true [str "r"] fullMap1 taskMap1 [srcRun01]
    [([str "a"], [str "b"])] fsNone fsNone (by decide)

/-- C6 counterexample: two source files resolving to the same target make the
dry and live passes classify differently — dry reports both as copied, live
skips the second with an already-exists reason — so dry-run output is not
always identical to live output. -/
theorem c6_counterexample :
    (importFiles true false fullMap1 taskMap1 [srcRun01, srcRun1] fsNone).skipped = [] ∧
    (importFiles false false fullMap1 taskMap1 [srcRun01, srcRun1] fsNone).skipped =
      [(str "sub-01_task-x_run-1_events.tsv", "already exists")] ∧
    (importFiles true false fullMap1 taskMap1 [srcRun01, srcRun1] fsNone).copied =
      [[str "sub-01", str "func", str "sub-01_task-x_run-1_events.tsv"],
       [str "sub-01", str "func", str "sub-01_task-x_run-1_events.tsv"]] ∧
    (importFiles false false fullMap1 taskMap1 [srcRun01, srcRun1] fsNone).copied =
      [[str "sub-01", str "func", str "sub-01_task-x_run-1_events.tsv"]] ∧
    ([] : List (Str × String)) ≠
      [(str "sub-01_task-x_run-1_events.tsv", "already exists")] := by
  refine ⟨by decide, by decide, by decide, by decide, by decide⟩

end BidsTools
